import Mathlib

/-!
# CropChain chaincode (`chaincode/cropchain.go`)

A shallow embedding of the Hyperledger Fabric chaincode that tracks a product through a
supply chain, and the properties of it stated in the specification.

Conventions of the embedding:

* a Go `string` and a `[]byte` are the list of their bytes (`GoString`, `Bytes`), valid
  UTF-8 or not; a Lean `String` used where a Go string is expected stands for its UTF-8
  encoding;
* a ledger key, and so the identifier of a product, is a text (a Lean `String`): the stub
  hands a key to the ledger in a protocol-buffer `string` field, which holds valid UTF-8
  only, so a key the ledger answers for is a text. The other arguments of the contract
  functions reach the chaincode as bytes and are Go strings;
* a Go `int64` is an `Int` together with its range;
* a Go `error` result is a value of `GoError`; a function that returns `(T, error)` returns an
  `Except GoError T`, a function that returns `error` returns an `Option GoError`;
* every contract function takes the ledger and returns the ledger it leaves behind;
* `encoding/json`, with what it uses of `unicode/utf8`, and the ledger stub are libraries
  the chaincode calls. The first is modelled after the library's documented behaviour for
  the `Product` struct, the second after section 6 of the specification.
-/

namespace CropChain

/-! ## Go values -/

/-- Go `byte`. -/
abbrev Byte := Fin 256

/-- Go `[]byte`. -/
abbrev Bytes := List Byte

/-- Go `string`: a sequence of bytes, which need not be valid UTF-8. -/
abbrev GoString := List Byte

/-! ## UTF-8 (`unicode/utf8`) -/

/-- The byte with the value `n`, for `n < 256`. -/
def byte (n : Nat) : Byte := Fin.ofNat n

/-- The UTF-8 encoding of a code point (`utf8.AppendRune`). -/
def EncodeRune (c : Char) : List Byte :=
  if c.toNat < 128 then [byte c.toNat]
  else if c.toNat < 2048 then [byte (192 + c.toNat / 64), byte (128 + c.toNat % 64)]
  else if c.toNat < 65536 then
    [byte (224 + c.toNat / 4096), byte (128 + c.toNat / 64 % 64), byte (128 + c.toNat % 64)]
  else
    [byte (240 + c.toNat / 262144), byte (128 + c.toNat / 4096 % 64),
      byte (128 + c.toNat / 64 % 64), byte (128 + c.toNat % 64)]

/-- The UTF-8 encoding of a text. -/
def utf8Encode (cs : List Char) : List Byte :=
  cs.flatMap EncodeRune

/-- Unpacks the first UTF-8 encoding in `p` (`utf8.DecodeRune`): the code point and the
number of bytes it takes. When `p` does not start with a valid encoding the result is no
code point (`RuneError`) and width 1, or width 0 when `p` is empty. The first byte decides
the length and the range of the second byte, which shuts out encodings that are longer
than needed, surrogates and values above U+10FFFF. -/
def DecodeRune (p : List Byte) : Option Char × Nat :=
  match p with
  | [] => (none, 0)
  | p0 :: rest =>
    if p0.val < 128 then (some (Char.ofNat p0.val), 1)
    else if p0.val < 194 ∨ 244 < p0.val then (none, 1)
    else
      let sz : Nat := if p0.val < 224 then 2 else if p0.val < 240 then 3 else 4
      let lo : Nat := if p0.val = 224 then 160 else if p0.val = 240 then 144 else 128
      let hi : Nat := if p0.val = 237 then 159 else if p0.val = 244 then 143 else 191
      if rest.length + 1 < sz then (none, 1)
      else
        match rest with
        | [] => (none, 1)
        | b1 :: rest1 =>
          if b1.val < lo ∨ hi < b1.val then (none, 1)
          else if sz ≤ 2 then (some (Char.ofNat (p0.val % 32 * 64 + b1.val % 64)), 2)
          else
            match rest1 with
            | [] => (none, 1)
            | b2 :: rest2 =>
              if b2.val < 128 ∨ 191 < b2.val then (none, 1)
              else if sz ≤ 3 then
                (some (Char.ofNat (p0.val % 16 * 4096 + b1.val % 64 * 64 + b2.val % 64)), 3)
              else
                match rest2 with
                | [] => (none, 1)
                | b3 :: _ =>
                  if b3.val < 128 ∨ 191 < b3.val then (none, 1)
                  else
                    (some (Char.ofNat (p0.val % 8 * 262144 + b1.val % 64 * 4096 +
                      b2.val % 64 * 64 + b3.val % 64)), 4)

/-- The loop `for i < len(s) { r, size := utf8.DecodeRune(s[i:]); ...; i += size }` that
Go code runs over a string: what each step decodes, a code point or, for a byte that
starts no valid encoding, nothing. The first argument bounds the number of steps. -/
def decodeItemsAux : Nat → List Byte → List (Option Char)
  | 0, _ => []
  | _ + 1, [] => []
  | fuel + 1, b :: bs =>
    (DecodeRune (b :: bs)).1 :: decodeItemsAux fuel ((b :: bs).drop (DecodeRune (b :: bs)).2)

/-- The code points and the invalid bytes of a Go string, in order. Each step takes at
least one byte, so as many steps as the string has bytes are enough. -/
def decodeItems (s : List Byte) : List (Option Char) :=
  decodeItemsAux s.length s

/-- The text a Go string is read as when a byte that starts no valid encoding counts as
U+FFFD (`[]rune(s)`). -/
def utf8Decode (s : List Byte) : List Char :=
  (decodeItems s).map fun r => r.getD (Char.ofNat 65533)

/-- Whether a Go string is valid UTF-8 (`utf8.ValidString`): every step over it decodes a
code point. -/
def ValidString (s : List Byte) : Bool :=
  (decodeItems s).all Option.isSome

/-- A Go string with every byte that starts no valid encoding replaced by the encoding of
U+FFFD, the other bytes kept: the coercion to valid UTF-8 that `json.Marshal` applies to
the strings it writes. -/
def coerceUTF8 (s : List Byte) : List Byte :=
  utf8Encode (utf8Decode s)

/-- A text where a Go string is expected is the Go string that holds its UTF-8 encoding. -/
instance : Coe String GoString :=
  ⟨fun s => utf8Encode s.data⟩

/-! ## The record -/

/-- Go `int64`. -/
abbrev Int64 := { v : Int // -9223372036854775808 ≤ v ∧ v ≤ 9223372036854775807 }

/-- Product describes basic details of what is being tracked (`type Product struct`).
The field `Type` of the source is `Type_` here, `Type` being reserved. -/
structure Product where
  ID : GoString
  Type_ : GoString
  Farmer : GoString
  Owner : GoString
  Timestamp : Int64
  MarketPriceHash : GoString
  CertificationIPFSHash : GoString
deriving DecidableEq

/-- The zero value of `Product`, as in `var product Product`. -/
def Product.zero : Product :=
  { ID := [], Type_ := [], Farmer := [], Owner := [], Timestamp := ⟨0, by decide⟩,
    MarketPriceHash := [], CertificationIPFSHash := [] }

/-! ## `encoding/json`: writing -/

/-- The digit of `n < 16` in `"0123456789abcdef"`. -/
def hexDigit (n : Nat) : Char :=
  if n < 10 then Char.ofNat (48 + n) else Char.ofNat (87 + n)

/-- One step of the string encoder of `json.Marshal` (HTML escaping on) at a valid
encoding: the text written for the code point it decodes. Backspace and form feed are
written `\b` and `\f` as Go 1.22 and later do; earlier versions write `\u0008` and
`\u000c`, which `unquote` reads as the same characters. -/
def appendRune (c : Char) : List Char :=
  if c = '\\' ∨ c = '"' then ['\\', c]
  else if c = '\x08' then ['\\', 'b']
  else if c = '\x0c' then ['\\', 'f']
  else if c = '\n' then ['\\', 'n']
  else if c = '\r' then ['\\', 'r']
  else if c = '\t' then ['\\', 't']
  else if c.toNat < 32 ∨ c = '<' ∨ c = '>' ∨ c = '&' then
    ['\\', 'u', '0', '0', hexDigit (c.toNat / 16), hexDigit (c.toNat % 16)]
  else if c = '\u2028' ∨ c = '\u2029' then
    ['\\', 'u', '2', '0', '2', hexDigit (c.toNat % 16)]
  else [c]

/-- One step of the string encoder of `json.Marshal`: at a valid encoding the text of
`appendRune` for its code point, and at a byte that starts no valid encoding (`DecodeRune`
gives `RuneError` and width 1) the six characters `\ufffd`, the escape of U+FFFD. -/
def appendItem : Option Char → List Char
  | some c => appendRune c
  | none => ['\\', 'u', 'f', 'f', 'f', 'd']

/-- The body of a JSON string literal (between the quotes) for a Go string: the encoder
walks the bytes of the string with `DecodeRune` and writes each step. -/
def appendBody (s : GoString) : List Char :=
  (decodeItems s).flatMap appendItem

/-- A Go string as a JSON string literal (`appendString`). -/
def appendString (s : GoString) : List Char :=
  '"' :: (appendBody s ++ ['"'])

/-- Decimal text of an `int64`, as `strconv.AppendInt(_, v, 10)`. -/
def appendInt (v : Int) : List Char :=
  if v < 0 then '-' :: Nat.toDigits 10 v.natAbs else Nat.toDigits 10 v.toNat

/-- Errors of `encoding/json`: `*json.SyntaxError` and `*json.UnmarshalTypeError`. -/
inductive JsonError
  | SyntaxError
  | UnmarshalTypeError
deriving DecidableEq

/-- The bytes `json.Marshal` writes for a `Product`: the fields in declaration order under
their `json:"..."` names, as the UTF-8 encoding of the text written. A code point that is
written as itself is written with the bytes it had in the string, which are its encoding.
Marshalling this struct has no failing case. -/
def Marshal (p : Product) : Except JsonError Bytes :=
  .ok (utf8Encode ("\x7b\"ID\":".data ++ appendString p.ID
    ++ ",\"type\":".data ++ appendString p.Type_
    ++ ",\"farmer\":".data ++ appendString p.Farmer
    ++ ",\"owner\":".data ++ appendString p.Owner
    ++ ",\"timestamp\":".data ++ appendInt p.Timestamp.val
    ++ ",\"marketPriceHash\":".data ++ appendString p.MarketPriceHash
    ++ ",\"certificationIPFSHash\":".data ++ appendString p.CertificationIPFSHash
    ++ "\x7d".data))

/-! ## `encoding/json`: reading -/

/-- A JSON value as the decoder sees it. A number keeps its literal text. -/
inductive JVal
  | null
  | bool (b : Bool)
  | num (lit : List Char)
  | str (s : List Char)
  | arr (xs : List JVal)
  | obj (kvs : List (List Char × JVal))

/-- JSON white space (`isSpace` of the scanner). -/
def isSpace (c : Char) : Bool :=
  c = ' ' || c = '\t' || c = '\r' || c = '\n'

/-- Drops leading white space. -/
def skipSpace : List Char → List Char
  | [] => []
  | c :: cs => if isSpace c then skipSpace cs else c :: cs

/-- Value of a hexadecimal digit, either case. -/
def hexVal (c : Char) : Option Nat :=
  if '0' ≤ c ∧ c ≤ '9' then some (c.toNat - 48)
  else if 'a' ≤ c ∧ c ≤ 'f' then some (c.toNat - 87)
  else if 'A' ≤ c ∧ c ≤ 'F' then some (c.toNat - 55)
  else none

/-- The number written by four hexadecimal digits (`getu4` without the leading `\u`). -/
def hex4 (a b c d : Char) : Option Nat :=
  match hexVal a, hexVal b, hexVal c, hexVal d with
  | some x, some y, some z, some w => some (((x * 16 + y) * 16 + z) * 16 + w)
  | _, _, _, _ => none

/-- The code point of a single-character escape `\e`. -/
def simpleEscape (e : Char) : Option Char :=
  if e = '"' then some '"'
  else if e = '\\' then some '\\'
  else if e = '/' then some '/'
  else if e = 'b' then some '\x08'
  else if e = 'f' then some '\x0c'
  else if e = 'n' then some '\n'
  else if e = 'r' then some '\r'
  else if e = 't' then some '\t'
  else none

/-- The code point of the surrogate pair made of the high surrogate `hi` and the low
surrogate written as `\uXXXX` at the head of `cs`, when there is such a pair
(`utf16.DecodeRune` applied to `getu4` of the following text). -/
def surrogatePair (hi : Nat) (cs : List Char) : Option Char :=
  match cs with
  | bs :: u :: a :: b :: c :: d :: _ =>
    if bs = '\\' ∧ u = 'u' ∧ hi < 56320 then
      match hex4 a b c d with
      | some lo =>
        if 56320 ≤ lo ∧ lo < 57344 then
          some (Char.ofNat ((hi - 55296) * 1024 + (lo - 56320) + 65536))
        else none
      | none => none
    else none
  | _ => none

/-- Reads a string literal after its opening quote (scanner and `unquote` together): the
text it denotes and the input after the closing quote. A control character, a bad escape
or a missing closing quote is a syntax error (`none`). A `\u` escape of a surrogate that is
not the first half of a valid pair denotes U+FFFD. -/
def unquote : List Char → Option (List Char × List Char)
  | [] => none
  | c :: cs =>
    if c = '"' then some ([], cs)
    else if c = '\\' then
      match cs with
      | [] => none
      | e :: cs1 =>
        if e = 'u' then
          match cs1 with
          | a :: b :: c2 :: d :: cs2 =>
            let after4 := unquote cs2
            let after10 :=
              match cs2 with
              | _ :: _ :: _ :: _ :: _ :: _ :: cs3 => unquote cs3
              | _ => none
            match hex4 a b c2 d with
            | none => none
            | some rr =>
              if 55296 ≤ rr ∧ rr < 57344 then
                match surrogatePair rr cs2 with
                | some ch => after10.map fun r => (ch :: r.1, r.2)
                | none => after4.map fun r => (Char.ofNat 65533 :: r.1, r.2)
              else after4.map fun r => (Char.ofNat rr :: r.1, r.2)
          | _ => none
        else
          match simpleEscape e with
          | none => none
          | some ch => (unquote cs1).map fun r => (ch :: r.1, r.2)
    else if c.toNat < 32 then none
    else (unquote cs).map fun r => (c :: r.1, r.2)

/-- Reads the digits of a number after its sign: `0`, or a non-zero digit and the digits
that follow it. -/
def scanInt : List Char → Option (List Char × List Char)
  | [] => none
  | d :: cs =>
    if d = '0' then some (['0'], cs)
    else if d.isDigit then some (d :: (cs.span Char.isDigit).1, (cs.span Char.isDigit).2)
    else none

/-- Reads an optional fraction: a point and at least one digit. -/
def scanFrac : List Char → Option (List Char × List Char)
  | [] => some ([], [])
  | c :: cs =>
    if c = '.' then
      if (cs.span Char.isDigit).1 = [] then none
      else some ('.' :: (cs.span Char.isDigit).1, (cs.span Char.isDigit).2)
    else some ([], c :: cs)

/-- Reads the digits of an exponent after its optional sign: at least one. -/
def scanExpDigits (cs : List Char) : Option (List Char × List Char) :=
  if (cs.span Char.isDigit).1 = [] then none
  else some ((cs.span Char.isDigit).1, (cs.span Char.isDigit).2)

/-- Reads an optional exponent: `e` or `E`, an optional sign and at least one digit. -/
def scanExp : List Char → Option (List Char × List Char)
  | [] => some ([], [])
  | c :: cs =>
    if c = 'e' ∨ c = 'E' then
      match cs with
      | [] => none
      | s :: cs1 =>
        if s = '+' ∨ s = '-' then (scanExpDigits cs1).map fun r => (c :: s :: r.1, r.2)
        else (scanExpDigits (s :: cs1)).map fun r => (c :: r.1, r.2)
    else some ([], c :: cs)

/-- Reads a number literal at the head of the input (the number states of the scanner):
the literal and the input after it. -/
def scanNumber (cs : List Char) : Option (List Char × List Char) :=
  let sign : List Char := if cs.head? = some '-' then ['-'] else []
  let body : List Char := if cs.head? = some '-' then cs.tail else cs
  match scanInt body with
  | none => none
  | some (ip, r1) =>
    match scanFrac r1 with
    | none => none
    | some (fp, r2) =>
      match scanExp r2 with
      | none => none
      | some (ep, r3) => some (sign ++ ip ++ fp ++ ep, r3)

/-- Checks that the input starts with the text `lit` and returns what follows it. -/
def scanLiteral (lit : List Char) (cs : List Char) : Option (List Char) :=
  if lit.isPrefixOf cs then some (cs.drop lit.length) else none

/-- The nesting depth the scanner accepts (`maxNestingDepth`). -/
def maxNestingDepth : Nat := 10000

mutual

/-- Reads one JSON value at the head of the input, white space before it skipped: the
value and the input after it, or `none` for a syntax error. `depth` is the number of
arrays and objects the value is nested in. The first argument bounds the number of
calls; `parseJSON` passes more than the length of the input. -/
def parseValue : Nat → Nat → List Char → Option (JVal × List Char)
  | 0, _, _ => none
  | fuel + 1, depth, cs =>
    match skipSpace cs with
    | [] => none
    | c :: rest =>
      if c = '\x7b' then
        if maxNestingDepth ≤ depth then none
        else
          match skipSpace rest with
          | [] => none
          | c1 :: rest1 =>
            if c1 = '\x7d' then some (JVal.obj [], rest1)
            else parseMembers fuel (depth + 1) [] (c1 :: rest1)
      else if c = '[' then
        if maxNestingDepth ≤ depth then none
        else
          match skipSpace rest with
          | [] => none
          | c1 :: rest1 =>
            if c1 = ']' then some (JVal.arr [], rest1)
            else parseElements fuel (depth + 1) [] (c1 :: rest1)
      else if c = '"' then
        (unquote rest).map fun r => (JVal.str r.1, r.2)
      else if c = 't' then
        (scanLiteral ['r', 'u', 'e'] rest).map fun r => (JVal.bool true, r)
      else if c = 'f' then
        (scanLiteral ['a', 'l', 's', 'e'] rest).map fun r => (JVal.bool false, r)
      else if c = 'n' then
        (scanLiteral ['u', 'l', 'l'] rest).map fun r => (JVal.null, r)
      else
        (scanNumber (c :: rest)).map fun r => (JVal.num r.1, r.2)

/-- Reads the members of an object from the first character of a key on, up to and
including the closing brace; `acc` holds the members read so far, last first. -/
def parseMembers : Nat → Nat → List (List Char × JVal) → List Char → Option (JVal × List Char)
  | 0, _, _, _ => none
  | fuel + 1, depth, acc, cs =>
    match cs with
    | [] => none
    | q :: afterQuote =>
      if q = '"' then
        match unquote afterQuote with
        | none => none
        | some (key, afterKey) =>
          match skipSpace afterKey with
          | [] => none
          | colon :: afterColon =>
            if colon = ':' then
              match parseValue fuel depth afterColon with
              | none => none
              | some (v, afterValue) =>
                match skipSpace afterValue with
                | [] => none
                | sep :: afterSep =>
                  if sep = ',' then parseMembers fuel depth ((key, v) :: acc) (skipSpace afterSep)
                  else if sep = '\x7d' then some (JVal.obj ((key, v) :: acc).reverse, afterSep)
                  else none
            else none
      else none

/-- Reads the elements of an array from the first character of an element on, up to and
including the closing bracket; `acc` holds the elements read so far, last first. -/
def parseElements : Nat → Nat → List JVal → List Char → Option (JVal × List Char)
  | 0, _, _, _ => none
  | fuel + 1, depth, acc, cs =>
    match parseValue fuel depth cs with
    | none => none
    | some (v, afterValue) =>
      match skipSpace afterValue with
      | [] => none
      | sep :: afterSep =>
        if sep = ',' then parseElements fuel depth (v :: acc) afterSep
        else if sep = ']' then some (JVal.arr (v :: acc).reverse, afterSep)
        else none

end

/-- Reads a whole JSON text: one value, white space around it allowed, nothing after it. -/
def parseText (text : List Char) : Option JVal :=
  match parseValue (text.length + 1) 0 text with
  | none => none
  | some (v, rest) => if skipSpace rest = [] then some v else none

/-- Reads the bytes of a JSON text (`checkValid` and the value it holds). The scanner
accepts a byte of 128 and above inside a string literal only, and `unquote` reads the
bytes of a literal with `DecodeRune`, a byte that starts no valid encoding as U+FFFD: the
bytes are read as the text they decode to, in which U+FFFD outside a literal is a syntax
error as the byte was. -/
def parseJSON (data : Bytes) : Option JVal :=
  parseText (utf8Decode data)

/-- The number written by a run of decimal digits. -/
def decimalValue (ds : List Char) : Nat :=
  ds.foldl (fun acc c => acc * 10 + (c.toNat - 48)) 0

/-- The integer a number literal denotes when it fits an `int64`
(`strconv.ParseInt(lit, 10, 64)` on a literal the scanner accepted): a literal with a
fraction or an exponent, or out of range, is refused. -/
def parseInt64 (lit : List Char) : Option Int64 :=
  let neg : Bool := lit.head? = some '-'
  let ds : List Char := if neg then lit.tail else lit
  if ds ≠ [] ∧ ds.all Char.isDigit = true then
    let v : Int := if neg then -(decimalValue ds : Int) else (decimalValue ds : Int)
    if h : -9223372036854775808 ≤ v ∧ v ≤ 9223372036854775807 then some ⟨v, h⟩ else none
  else none

/-- The smallest code point of the case-folding class of `c`, for the classes that hold an
ASCII letter (`foldRune`): the lower-case letters, the Kelvin sign and the long s fold to
upper-case ASCII letters. No other code point folds to an ASCII character, so the keys
that match the ASCII field names of `Product` are found with this table alone. -/
def foldRune (c : Char) : Char :=
  if 'a' ≤ c ∧ c ≤ 'z' then Char.ofNat (c.toNat - 32)
  else if c = '\u212a' then 'K'
  else if c = '\u017f' then 'S'
  else c

/-- The case-folded form of a key (`foldName`). -/
def foldName (cs : List Char) : List Char :=
  cs.map foldRune

/-- The fields of `Product`. -/
inductive Field
  | ID
  | Type_
  | Farmer
  | Owner
  | Timestamp
  | MarketPriceHash
  | CertificationIPFSHash
deriving DecidableEq

/-- The JSON name of each field, from the struct tags, in declaration order. -/
def fieldNames : List (List Char × Field) :=
  [ ("ID".data, Field.ID),
    ("type".data, Field.Type_),
    ("farmer".data, Field.Farmer),
    ("owner".data, Field.Owner),
    ("timestamp".data, Field.Timestamp),
    ("marketPriceHash".data, Field.MarketPriceHash),
    ("certificationIPFSHash".data, Field.CertificationIPFSHash) ]

/-- The field an object key selects: the field of that exact name, else the field whose
name is equal to the key up to case folding, else none (the member is skipped). -/
def lookupField (key : List Char) : Option Field :=
  match fieldNames.find? fun f => f.1 = key with
  | some f => some f.2
  | none => (fieldNames.find? fun f => foldName f.1 = foldName key).map fun f => f.2

/-- Stores the JSON value `v` into field `f` of `p`; a string field takes the UTF-8 encoding
of the text of the literal. `null` leaves the field as it is. A
value of the wrong kind (anything but a string for a string field, anything but an integer
literal in range for `Timestamp`) is an `UnmarshalTypeError`: `none`. -/
def decodeField (f : Field) (v : JVal) (p : Product) : Option Product :=
  match v with
  | JVal.null => some p
  | JVal.str s =>
    match f with
    | Field.ID => some { p with ID := utf8Encode s }
    | Field.Type_ => some { p with Type_ := utf8Encode s }
    | Field.Farmer => some { p with Farmer := utf8Encode s }
    | Field.Owner => some { p with Owner := utf8Encode s }
    | Field.Timestamp => none
    | Field.MarketPriceHash => some { p with MarketPriceHash := utf8Encode s }
    | Field.CertificationIPFSHash => some { p with CertificationIPFSHash := utf8Encode s }
  | JVal.num lit =>
    match f with
    | Field.Timestamp => (parseInt64 lit).map fun t => { p with Timestamp := t }
    | _ => none
  | _ => none

/-- Decodes one member of an object into the product. The state is the product so far and
whether a type error has been saved; after a type error decoding goes on. -/
def decodeMember (st : Product × Bool) (kv : List Char × JVal) : Product × Bool :=
  match lookupField kv.1 with
  | none => st
  | some f =>
    match decodeField f kv.2 st.1 with
    | some p => (p, st.2)
    | none => (st.1, true)

/-- The text read into the product `p` (`json.Unmarshal(data, &p)`): the text is checked
as a whole first, then an object is decoded member by member in the order written (a
later member for the same field wins), `null` changes nothing, and any other value is a
type error. Members that name no field are skipped; fields that no member names keep the
value they had. -/
def Unmarshal (data : Bytes) (p : Product) : Except JsonError Product :=
  match parseJSON data with
  | none => .error JsonError.SyntaxError
  | some JVal.null => .ok p
  | some (JVal.obj kvs) =>
    if (kvs.foldl decodeMember (p, false)).2 then .error JsonError.UnmarshalTypeError
    else .ok (kvs.foldl decodeMember (p, false)).1
  | some _ => .error JsonError.UnmarshalTypeError

/-! ## The ledger -/

/-- A commit time as the ledger records it (`timestamppb.Timestamp`). -/
structure PbTimestamp where
  Seconds : Int
  Nanos : Int
deriving DecidableEq

/-- A `time.Time` instant: seconds since the epoch and nanoseconds within the second. -/
structure Time where
  sec : Int
  nsec : Int
deriving DecidableEq

/-- The instant a recorded commit time stands for (`Timestamp.AsTime`, that is
`time.Unix(seconds, nanos)`, which carries whole seconds out of the nanoseconds). -/
def PbTimestamp.AsTime (t : PbTimestamp) : Time :=
  { sec := t.Seconds + t.Nanos / 1000000000, nsec := t.Nanos % 1000000000 }

/-- One entry of the commit log of a key (`queryresult.KeyModification`). -/
structure KeyModification where
  TxId : String
  Value : Bytes
  Timestamp : PbTimestamp
  IsDelete : Bool
deriving DecidableEq

/-- Modelled from the spec: the backing ledger of section 6, which the chaincode reaches
through `ctx.GetStub()` and whose code is not part of the repository. It holds the
current value of every key (`ledgerGet`), the commit log of every key, oldest entry
first (`ledgerHistory`), and whether it can be reached: when `unavailable` holds a
message every call made through the stub fails with it. -/
structure Ledger where
  state : String → Option Bytes
  history : String → List KeyModification
  unavailable : Option String

/-- The ledger in which nothing was ever written. -/
def Ledger.empty : Ledger :=
  { state := fun _ => none, history := fun _ => [], unavailable := none }

/-- What the transaction context tells the ledger about the running transaction: its
identifier and its commit time, which the ledger records with every write. -/
structure TransactionContext where
  TxID : String
  TxTimestamp : PbTimestamp

/-- Modelled from the spec: `ledgerGet(key) -> bytes | absent`, the point lookup of the
current value (`stub.GetState`). It writes nothing. -/
def GetState (l : Ledger) (key : String) : Except String (Option Bytes) × Ledger :=
  match l.unavailable with
  | some err => (.error err, l)
  | none => (.ok (l.state key), l)

/-- Modelled from the spec: `ledgerPut(key, bytes)`, which replaces the current value of
the key and extends the commit log of that key by one entry (`stub.PutState`). As in the
specification the only failure is a ledger that cannot be reached: every key and every
value is accepted. The entry records the transaction and is not a deletion. -/
def PutState (ctx : TransactionContext) (l : Ledger) (key : String) (value : Bytes) :
    Option String × Ledger :=
  match l.unavailable with
  | some err => (some err, l)
  | none =>
    (none,
      { l with
        state := fun k => if k = key then some value else l.state k
        history := fun k =>
          if k = key then
            l.history k ++
              [{ TxId := ctx.TxID, Value := value, Timestamp := ctx.TxTimestamp,
                 IsDelete := false }]
          else l.history k })

/-- Modelled from the spec: `ledgerHistory(key)`, the commit log of the key in the
ledger's order (`stub.GetHistoryForKey`). The iterator it returns is modelled by the list
of entries it yields, so `HasNext` is "the list is not empty" and `Next` takes its head
and does not fail. It writes nothing. -/
def GetHistoryForKey (l : Ledger) (key : String) :
    Except String (List KeyModification) × Ledger :=
  match l.unavailable with
  | some err => (.error err, l)
  | none => (.ok (l.history key), l)

/-! ## The chaincode -/

/-- A Go `error` value the chaincode returns: one it made with `fmt.Errorf`, one the
ledger stub returned and the chaincode passes on untouched, or one `encoding/json`
returned. -/
inductive GoError
  | Errorf (msg : String)
  | Stub (msg : String)
  | Json (err : JsonError)
deriving DecidableEq

/-- HistoryQueryResult structure used for returning history of a product. -/
structure HistoryQueryResult where
  Record : Product
  TxId : String
  Timestamp : Time
  IsDelete : Bool
deriving DecidableEq

/-- ProductExists returns true when product with given ID exists in world state. -/
def ProductExists (l : Ledger) (id : String) : Except GoError Bool × Ledger :=
  match GetState l id with
  | (.error err, l1) => (.error (GoError.Errorf ("failed to read from world state: " ++ err)), l1)
  | (.ok productJSON, l1) => (.ok (productJSON != none), l1)

/-- ReadProduct returns the product stored in the world state with given id. -/
def ReadProduct (l : Ledger) (id : String) : Except GoError Product × Ledger :=
  match GetState l id with
  | (.error err, l1) => (.error (GoError.Errorf ("failed to read from world state: " ++ err)), l1)
  | (.ok none, l1) => (.error (GoError.Errorf ("the product " ++ id ++ " does not exist")), l1)
  | (.ok (some productJSON), l1) =>
    match Unmarshal productJSON Product.zero with
    | .error err => (.error (GoError.Json err), l1)
    | .ok product => (.ok product, l1)

/-- CreateProduct issues a new product to the world state with given details. `now` is
the value of `time.Now().Unix()` read by the call. The field `ID` takes the Go string that
holds the key `id`. -/
def CreateProduct (ctx : TransactionContext) (now : Int64) (l : Ledger) (id : String)
    (productType : GoString) (farmer : GoString) (marketPriceHash : GoString)
    (certHash : GoString) :
    Option GoError × Ledger :=
  match ProductExists l id with
  | (.error err, l1) => (some err, l1)
  | (.ok pexists, l1) =>
    if pexists then (some (GoError.Errorf ("the product " ++ id ++ " already exists")), l1)
    else
      let product : Product :=
        { ID := id, Type_ := productType, Farmer := farmer, Owner := farmer,
          Timestamp := now, MarketPriceHash := marketPriceHash,
          CertificationIPFSHash := certHash }
      match Marshal product with
      | .error err => (some (GoError.Json err), l1)
      | .ok productJSON =>
        match PutState ctx l1 id productJSON with
        | (some err, l2) => (some (GoError.Stub err), l2)
        | (none, l2) => (none, l2)

/-- ShipProduct updates the owner of a product to a new shipper. `now` is the value of
`time.Now().Unix()` read by the call. -/
def ShipProduct (ctx : TransactionContext) (now : Int64) (l : Ledger) (id : String)
    (newOwner : GoString) : Option GoError × Ledger :=
  match ReadProduct l id with
  | (.error err, l1) => (some err, l1)
  | (.ok product, l1) =>
    let product1 : Product := { product with Owner := newOwner }
    let product2 : Product := { product1 with Timestamp := now }
    match Marshal product2 with
    | .error err => (some (GoError.Json err), l1)
    | .ok productJSON =>
      match PutState ctx l1 id productJSON with
      | (some err, l2) => (some (GoError.Stub err), l2)
      | (none, l2) => (none, l2)

/-- ReceiveProduct is functionally similar to ShipProduct but represents the end of a
transfer. -/
def ReceiveProduct (ctx : TransactionContext) (now : Int64) (l : Ledger) (id : String)
    (newOwner : GoString) : Option GoError × Ledger :=
  ShipProduct ctx now l id newOwner

/-- The loop of `GetProductHistory` over the entries the iterator still holds; `records`
is the slice built so far. -/
def historyLoop (id : String) :
    List KeyModification → List HistoryQueryResult → Except GoError (List HistoryQueryResult)
  | [], records => .ok records
  | response :: rest, records =>
    if response.Value.length > 0 then
      match Unmarshal response.Value Product.zero with
      | .error err => .error (GoError.Json err)
      | .ok product =>
        historyLoop id rest
          (records ++
            [{ TxId := response.TxId, Timestamp := response.Timestamp.AsTime,
               Record := product, IsDelete := response.IsDelete }])
    else
      historyLoop id rest
        (records ++
          [{ TxId := response.TxId, Timestamp := response.Timestamp.AsTime,
             Record := { Product.zero with ID := id }, IsDelete := response.IsDelete }])

/-- GetProductHistory returns the chain of custody for a product since issuance. -/
def GetProductHistory (l : Ledger) (id : String) :
    Except GoError (List HistoryQueryResult) × Ledger :=
  match GetHistoryForKey l id with
  | (.error err, l1) => (.error (GoError.Stub err), l1)
  | (.ok resultsIterator, l1) => (historyLoop id resultsIterator [], l1)

/-! ## Sequences of calls -/

/-- The two entry points that transfer custody. -/
inductive TransferKind
  | Ship
  | Receive
deriving DecidableEq

/-- One invocation that transfers custody: the entry point called, the transaction it runs
in, the value of `time.Now().Unix()` it reads, and the new holder. -/
structure TransferCall where
  kind : TransferKind
  ctx : TransactionContext
  now : Int64
  newOwner : GoString

/-- Runs the invocation on the product `id`. -/
def TransferCall.run (t : TransferCall) (l : Ledger) (id : String) : Option GoError × Ledger :=
  match t.kind with
  | TransferKind.Ship => ShipProduct t.ctx t.now l id t.newOwner
  | TransferKind.Receive => ReceiveProduct t.ctx t.now l id t.newOwner

/-- Runs the invocations one after the other on the product `id`, each on the ledger the
one before left: the `error` each returned, and the ledger after the last. -/
def runTransfers (id : String) : Ledger → List TransferCall → List (Option GoError) × Ledger
  | l, [] => ([], l)
  | l, t :: ts =>
    ((t.run l id).1 :: (runTransfers id (t.run l id).2 ts).1,
      (runTransfers id (t.run l id).2 ts).2)

/-- One invocation of an entry point that writes: the entry point, the transaction it
runs in, the value of `time.Now().Unix()` it reads, and its arguments. -/
inductive Call
  | Create (ctx : TransactionContext) (now : Int64) (id : String)
      (productType farmer marketPriceHash certHash : GoString)
  | Ship (ctx : TransactionContext) (now : Int64) (id : String) (newOwner : GoString)
  | Receive (ctx : TransactionContext) (now : Int64) (id : String) (newOwner : GoString)

/-- Runs the invocation on a ledger. -/
def Call.run : Call → Ledger → Option GoError × Ledger
  | Call.Create ctx now id productType farmer marketPriceHash certHash, l =>
    CreateProduct ctx now l id productType farmer marketPriceHash certHash
  | Call.Ship ctx now id newOwner, l => ShipProduct ctx now l id newOwner
  | Call.Receive ctx now id newOwner, l => ReceiveProduct ctx now l id newOwner

/-- The holder an invocation names: the farmer of a create, the new owner of a transfer. -/
def Call.holder : Call → GoString
  | Call.Create _ _ _ _ farmer _ _ => farmer
  | Call.Ship _ _ _ newOwner => newOwner
  | Call.Receive _ _ _ newOwner => newOwner

/-- The ledger reached from `l` by the invocations in order, whether they succeed or
fail. -/
def runCalls : Ledger → List Call → Ledger
  | l, [] => l
  | l, c :: cs => runCalls (c.run l).2 cs

/-! ## Descriptions used in the proofs -/

/-- The text `body`, written between two quotes, is a string literal that reads as the
text `s`, whatever follows the closing quote. -/
def Quotes (body s : List Char) : Prop :=
  ∀ rest, unquote (body ++ '"' :: rest) = some (s, rest)

/-- The members `Marshal` writes for a product, as the reader sees them. -/
def marshalMembers (p : Product) : List (List Char × JVal) :=
  [ ("ID".data, JVal.str (utf8Decode p.ID)),
    ("type".data, JVal.str (utf8Decode p.Type_)),
    ("farmer".data, JVal.str (utf8Decode p.Farmer)),
    ("owner".data, JVal.str (utf8Decode p.Owner)),
    ("timestamp".data, JVal.num (appendInt p.Timestamp.val)),
    ("marketPriceHash".data, JVal.str (utf8Decode p.MarketPriceHash)),
    ("certificationIPFSHash".data, JVal.str (utf8Decode p.CertificationIPFSHash)) ]

/-- The text `Marshal` writes, character by character. -/
def marshalChars (p : Product) : List Char :=
  '\x7b' :: '"' :: ("ID".data ++ '"' :: ':' :: '"' :: (appendBody p.ID ++ '"' :: ',' ::
    '"' :: ("type".data ++ '"' :: ':' :: '"' :: (appendBody p.Type_ ++ '"' :: ',' ::
    '"' :: ("farmer".data ++ '"' :: ':' :: '"' :: (appendBody p.Farmer ++ '"' :: ',' ::
    '"' :: ("owner".data ++ '"' :: ':' :: '"' :: (appendBody p.Owner ++ '"' :: ',' ::
    '"' :: ("timestamp".data ++ '"' :: ':' :: (appendInt p.Timestamp.val ++ ',' ::
    '"' :: ("marketPriceHash".data ++ '"' :: ':' :: '"' ::
      (appendBody p.MarketPriceHash ++ '"' :: ',' ::
    '"' :: ("certificationIPFSHash".data ++ '"' :: ':' :: '"' ::
      (appendBody p.CertificationIPFSHash ++ '"' :: '\x7d' :: []))))))))))))))

/-- The bytes `Marshal` writes. -/
def marshalText (p : Product) : Bytes :=
  utf8Encode (marshalChars p)

/-- The product with every string field coerced to valid UTF-8: what is read back from
what `Marshal` writes for `p`. -/
def Product.coerced (p : Product) : Product :=
  { ID := coerceUTF8 p.ID, Type_ := coerceUTF8 p.Type_, Farmer := coerceUTF8 p.Farmer,
    Owner := coerceUTF8 p.Owner, Timestamp := p.Timestamp,
    MarketPriceHash := coerceUTF8 p.MarketPriceHash,
    CertificationIPFSHash := coerceUTF8 p.CertificationIPFSHash }

/-- What a successful `PutState` leaves behind. -/
def written (ctx : TransactionContext) (l : Ledger) (key : String) (value : Bytes) : Ledger :=
  { l with
    state := fun k => if k = key then some value else l.state k
    history := fun k =>
      if k = key then
        l.history k ++
          [{ TxId := ctx.TxID, Value := value, Timestamp := ctx.TxTimestamp,
             IsDelete := false }]
      else l.history k }

/-- The entry `GetProductHistory` returns for the log entry `e` when the entry's value
reads as the product `p`. -/
def resultOf (e : KeyModification) (p : Product) : HistoryQueryResult :=
  { Record := p, TxId := e.TxId, Timestamp := e.Timestamp.AsTime, IsDelete := e.IsDelete }

/-- What ties an entry `r` of the result of `GetProductHistory id` to the log entry `e` it
was made from. -/
def Replays (id : String) (e : KeyModification) (r : HistoryQueryResult) : Prop :=
  r.TxId = e.TxId ∧ r.Timestamp = e.Timestamp.AsTime ∧ r.IsDelete = e.IsDelete ∧
    (e.Value ≠ [] → Unmarshal e.Value Product.zero = .ok r.Record) ∧
    (e.Value = [] → r.Record = { Product.zero with ID := id })

/-- The value of a field of a product: a string, or the integer of `Timestamp`. -/
inductive FieldValue
  | str (s : GoString)
  | int (n : Int64)
deriving DecidableEq

/-- The value the product `p` has in the field `f`. -/
def Product.get (p : Product) : Field → FieldValue
  | Field.ID => FieldValue.str p.ID
  | Field.Type_ => FieldValue.str p.Type_
  | Field.Farmer => FieldValue.str p.Farmer
  | Field.Owner => FieldValue.str p.Owner
  | Field.Timestamp => FieldValue.int p.Timestamp
  | Field.MarketPriceHash => FieldValue.str p.MarketPriceHash
  | Field.CertificationIPFSHash => FieldValue.str p.CertificationIPFSHash

/-- The value `v` is what `Marshal` writes for a product whose identifier is the key `k`
and whose owner is one of `holders`. -/
def Stored (holders : List GoString) (k : String) (v : Bytes) : Prop :=
  ∃ p : Product, v = marshalText p ∧ p.ID = (k : GoString) ∧ p.Owner ∈ holders

/-- What the chaincode keeps true of a ledger it alone has written to, `holders` being the
holders named so far: the ledger can be reached, and every current value and every value
in a commit log is `Stored` under its key. -/
def Maintained (holders : List GoString) (l : Ledger) : Prop :=
  l.unavailable = none ∧
    (∀ k v, l.state k = some v → Stored holders k v) ∧
    (∀ k e, e ∈ l.history k → Stored holders k e.Value)

/-! ## Sample values -/

/-- A transaction. -/
def tx1 : TransactionContext :=
  { TxID := "tx1", TxTimestamp := { Seconds := 1700000000, Nanos := 0 } }

/-- A later transaction. -/
def tx2 : TransactionContext :=
  { TxID := "tx2", TxTimestamp := { Seconds := 1700000060, Nanos := 0 } }

/-- A third transaction. -/
def tx3 : TransactionContext :=
  { TxID := "tx3", TxTimestamp := { Seconds := 1700000120, Nanos := 0 } }

/-- A clock reading. -/
def t1 : Int64 := ⟨1700000000, by decide⟩

/-- A later clock reading. -/
def t2 : Int64 := ⟨1700000060, by decide⟩

/-- A third clock reading. -/
def t3 : Int64 := ⟨1700000120, by decide⟩

/-- The product of the specification's examples as `CreateProduct` builds it at `t1`. -/
def productP1 : Product :=
  { ID := "P1", Type_ := "grain", Farmer := "farmerA", Owner := "farmerA", Timestamp := t1,
    MarketPriceHash := "priceHash1", CertificationIPFSHash := "certHash1" }

/-- A product whose two references are the empty string. -/
def productNoRefs : Product :=
  { ID := "P1", Type_ := "grain", Farmer := "farmerA", Owner := "farmerA", Timestamp := t1,
    MarketPriceHash := "", CertificationIPFSHash := "" }

/-- A Go string that is not valid UTF-8: the single byte `0xFF`. -/
def invalidHolder : GoString :=
  [255]

/-- The UTF-8 encoding of U+FFFD, the bytes `0xEF 0xBF 0xBD`. -/
def replacementHolder : GoString :=
  [239, 191, 189]

/-- The product `productP1` with an owner that is not valid UTF-8. -/
def productInvalid : Product :=
  { ID := "P1", Type_ := "grain", Farmer := "farmerA", Owner := invalidHolder, Timestamp := t1,
    MarketPriceHash := "priceHash1", CertificationIPFSHash := "certHash1" }

/-- The bytes `Marshal` writes for `productInvalid`: the owner is written as the escape of
U+FFFD. -/
def textInvalid : Bytes :=
  utf8Encode
    ("\x7b\"ID\":\"P1\",\"type\":\"grain\",\"farmer\":\"farmerA\",\"owner\":\"\\ufffd\"," ++
      "\"timestamp\":1700000000,\"marketPriceHash\":\"priceHash1\"," ++
      "\"certificationIPFSHash\":\"certHash1\"\x7d").data

/-- A product whose six strings are not valid UTF-8. -/
def productAllInvalid : Product :=
  { ID := invalidHolder, Type_ := invalidHolder, Farmer := invalidHolder,
    Owner := invalidHolder, Timestamp := t1, MarketPriceHash := invalidHolder,
    CertificationIPFSHash := invalidHolder }

/-- The bytes `Marshal` writes for `productAllInvalid`. -/
def textAllInvalid : Bytes :=
  utf8Encode
    ("\x7b\"ID\":\"\\ufffd\",\"type\":\"\\ufffd\",\"farmer\":\"\\ufffd\",\"owner\":\"\\ufffd\"," ++
      "\"timestamp\":1700000000,\"marketPriceHash\":\"\\ufffd\"," ++
      "\"certificationIPFSHash\":\"\\ufffd\"\x7d").data

/-- The bytes `Marshal` writes for `productP1` shipped to `shipperB` at `t2`. -/
def textShipped : Bytes :=
  utf8Encode
    ("\x7b\"ID\":\"P1\",\"type\":\"grain\",\"farmer\":\"farmerA\",\"owner\":\"shipperB\"," ++
      "\"timestamp\":1700000060,\"marketPriceHash\":\"priceHash1\"," ++
      "\"certificationIPFSHash\":\"certHash1\"\x7d").data

/-- The text `Marshal` writes for `productP1`. -/
def textP1 : Bytes :=
  utf8Encode
    ("\x7b\"ID\":\"P1\",\"type\":\"grain\",\"farmer\":\"farmerA\",\"owner\":\"farmerA\"," ++
      "\"timestamp\":1700000000,\"marketPriceHash\":\"priceHash1\"," ++
      "\"certificationIPFSHash\":\"certHash1\"\x7d").data

/-- Bytes that are not JSON. -/
def textGarbage : Bytes :=
  utf8Encode "garbage".data

/-- The JSON object that has the member `ID` and no other. -/
def textPartial : Bytes :=
  utf8Encode "\x7b\"ID\":\"P1\"\x7d".data

/-- The log entry of the creation of `P1` by `tx1`. -/
def entryCreated : KeyModification :=
  { TxId := "tx1", Value := textP1, Timestamp := { Seconds := 1700000000, Nanos := 0 },
    IsDelete := false }

/-- A tombstone: the log entry of a deletion by `tx2`, with the deletion flag set and no
value. -/
def entryTombstone : KeyModification :=
  { TxId := "tx2", Value := [], Timestamp := { Seconds := 1700000060, Nanos := 0 },
    IsDelete := true }

/-- A log entry whose value is not JSON. -/
def entryGarbage : KeyModification :=
  { TxId := "tx2", Value := textGarbage, Timestamp := { Seconds := 1700000060, Nanos := 0 },
    IsDelete := false }

/-- A ledger in which `P1` was created by `tx1`. -/
def ledgerP1 : Ledger :=
  { state := fun k => if k = "P1" then some textP1 else none
    history := fun k => if k = "P1" then [entryCreated] else []
    unavailable := none }

/-- A ledger in which `P1` was created by `tx1` and deleted at the ledger level by `tx2`:
the log ends with a tombstone. -/
def ledgerDeleted : Ledger :=
  { state := fun _ => none
    history := fun k => if k = "P1" then [entryCreated, entryTombstone] else []
    unavailable := none }

/-- A ledger in which the second value written under `P1` is not JSON. -/
def ledgerCorrupt : Ledger :=
  { state := fun k => if k = "P1" then some textGarbage else none
    history := fun k => if k = "P1" then [entryCreated, entryGarbage] else []
    unavailable := none }

/-- A ledger in which the value stored under `P1` is a JSON object that has the member
`ID` and no other. -/
def ledgerPartial : Ledger :=
  { state := fun k => if k = "P1" then some textPartial else none
    history := fun k =>
      if k = "P1" then
        [{ TxId := "tx1", Value := textPartial,
           Timestamp := { Seconds := 1700000000, Nanos := 0 }, IsDelete := false }]
      else []
    unavailable := none }

/-! ## UTF-8 encodings are decoded as what was encoded -/

theorem byte_val (n : Nat) (h : n < 256) : (byte n).val = n := by
  simp [byte, Fin.ofNat, Nat.mod_eq_of_lt h]

theorem Char_toNat_ofNat (n : Nat) (h : n.isValidChar) : (Char.ofNat n).toNat = n := by
  unfold Char.ofNat
  rw [dif_pos h]
  unfold Char.ofNatAux Char.toNat
  simp [UInt32.toNat]

theorem Char_toNat_valid (c : Char) :
    c.toNat < 55296 ∨ (57343 < c.toNat ∧ c.toNat < 1114112) :=
  c.valid

theorem DecodeRune_one (p0 : Byte) (tail : List Byte) (h0 : p0.val < 128) :
    DecodeRune (p0 :: tail) = (some (Char.ofNat p0.val), 1) := by
  simp only [DecodeRune, h0, if_true]

theorem DecodeRune_two (p0 b1 : Byte) (tail : List Byte) (h0 : 194 ≤ p0.val ∧ p0.val < 224)
    (h1 : 128 ≤ b1.val ∧ b1.val ≤ 191) :
    DecodeRune (p0 :: b1 :: tail) = (some (Char.ofNat (p0.val % 32 * 64 + b1.val % 64)), 2) := by
  have hsz : (if p0.val < 224 then 2 else if p0.val < 240 then 3 else 4) = 2 := by
    rw [if_pos h0.2]
  have hlo : (if p0.val = 224 then 160 else if p0.val = 240 then 144 else 128) = 128 := by
    rw [if_neg (by omega), if_neg (by omega)]
  have hhi : (if p0.val = 237 then 159 else if p0.val = 244 then 143 else 191) = 191 := by
    rw [if_neg (by omega), if_neg (by omega)]
  have n0 : ¬ p0.val < 128 := by omega
  have n1 : ¬ (p0.val < 194 ∨ 244 < p0.val) := by omega
  have n3 : ¬ (b1.val < 128 ∨ 191 < b1.val) := by omega
  simp only [DecodeRune, List.length_cons, hsz, hlo, hhi]
  rw [if_neg n0, if_neg n1, if_neg (by omega), if_neg n3, if_pos (le_refl 2)]

theorem DecodeRune_three (p0 b1 b2 : Byte) (tail : List Byte)
    (h0 : 224 ≤ p0.val ∧ p0.val < 240)
    (h1 : 128 ≤ b1.val ∧ b1.val ≤ 191 ∧ (p0.val = 224 → 160 ≤ b1.val) ∧
      (p0.val = 237 → b1.val ≤ 159))
    (h2 : 128 ≤ b2.val ∧ b2.val ≤ 191) :
    DecodeRune (p0 :: b1 :: b2 :: tail) =
      (some (Char.ofNat (p0.val % 16 * 4096 + b1.val % 64 * 64 + b2.val % 64)), 3) := by
  have hsz : (if p0.val < 224 then 2 else if p0.val < 240 then 3 else 4) = 3 := by
    rw [if_neg (by omega), if_pos h0.2]
  have hlo : (if p0.val = 224 then 160 else if p0.val = 240 then 144 else 128) ≤ b1.val := by
    split_ifs <;> omega
  have hhi : b1.val ≤ (if p0.val = 237 then 159 else if p0.val = 244 then 143 else 191) := by
    split_ifs <;> omega
  have n0 : ¬ p0.val < 128 := by omega
  have n1 : ¬ (p0.val < 194 ∨ 244 < p0.val) := by omega
  have n5 : ¬ (b2.val < 128 ∨ 191 < b2.val) := by omega
  simp only [DecodeRune, List.length_cons, hsz]
  rw [if_neg n0, if_neg n1, if_neg (by omega), if_neg (by omega), if_neg (by omega),
    if_neg n5, if_pos (le_refl 3)]

theorem DecodeRune_four (p0 b1 b2 b3 : Byte) (tail : List Byte)
    (h0 : 240 ≤ p0.val ∧ p0.val ≤ 244)
    (h1 : 128 ≤ b1.val ∧ b1.val ≤ 191 ∧ (p0.val = 240 → 144 ≤ b1.val) ∧
      (p0.val = 244 → b1.val ≤ 143))
    (h2 : 128 ≤ b2.val ∧ b2.val ≤ 191) (h3 : 128 ≤ b3.val ∧ b3.val ≤ 191) :
    DecodeRune (p0 :: b1 :: b2 :: b3 :: tail) =
      (some (Char.ofNat (p0.val % 8 * 262144 + b1.val % 64 * 4096 + b2.val % 64 * 64 +
        b3.val % 64)), 4) := by
  have hsz : (if p0.val < 224 then 2 else if p0.val < 240 then 3 else 4) = 4 := by
    rw [if_neg (by omega), if_neg (by omega)]
  have hlo : (if p0.val = 224 then 160 else if p0.val = 240 then 144 else 128) ≤ b1.val := by
    split_ifs <;> omega
  have hhi : b1.val ≤ (if p0.val = 237 then 159 else if p0.val = 244 then 143 else 191) := by
    split_ifs <;> omega
  have n0 : ¬ p0.val < 128 := by omega
  have n1 : ¬ (p0.val < 194 ∨ 244 < p0.val) := by omega
  have n5 : ¬ (b2.val < 128 ∨ 191 < b2.val) := by omega
  have n7 : ¬ (b3.val < 128 ∨ 191 < b3.val) := by omega
  simp only [DecodeRune, List.length_cons, hsz]
  rw [if_neg n0, if_neg n1, if_neg (by omega), if_neg (by omega), if_neg (by omega),
    if_neg n5, if_neg (by omega), if_neg n7]

theorem DecodeRune_EncodeRune (c : Char) (tail : List Byte) :
    DecodeRune (EncodeRune c ++ tail) = (some c, (EncodeRune c).length) := by
  have hv := Char_toNat_valid c
  unfold EncodeRune
  split_ifs with h1 h2 h3
  · rw [List.singleton_append, DecodeRune_one _ _ (by rw [byte_val _ (by omega)]; exact h1),
      byte_val _ (by omega), Char.ofNat_toNat]
    rfl
  · have e0 := byte_val (192 + c.toNat / 64) (by omega)
    have e1 := byte_val (128 + c.toNat % 64) (by omega)
    simp only [List.cons_append, List.nil_append]
    rw [DecodeRune_two _ _ _ (by omega) (by omega), e0, e1]
    have hc : (192 + c.toNat / 64) % 32 * 64 + (128 + c.toNat % 64) % 64 = c.toNat := by omega
    rw [hc, Char.ofNat_toNat]
    rfl
  · have e0 := byte_val (224 + c.toNat / 4096) (by omega)
    have e1 := byte_val (128 + c.toNat / 64 % 64) (by omega)
    have e2 := byte_val (128 + c.toNat % 64) (by omega)
    simp only [List.cons_append, List.nil_append]
    rw [DecodeRune_three _ _ _ _ (by omega) (by omega) (by omega), e0, e1, e2]
    have hc : (224 + c.toNat / 4096) % 16 * 4096 + (128 + c.toNat / 64 % 64) % 64 * 64 +
        (128 + c.toNat % 64) % 64 = c.toNat := by omega
    rw [hc, Char.ofNat_toNat]
    rfl
  · have e0 := byte_val (240 + c.toNat / 262144) (by omega)
    have e1 := byte_val (128 + c.toNat / 4096 % 64) (by omega)
    have e2 := byte_val (128 + c.toNat / 64 % 64) (by omega)
    have e3 := byte_val (128 + c.toNat % 64) (by omega)
    simp only [List.cons_append, List.nil_append]
    rw [DecodeRune_four _ _ _ _ _ (by omega) (by omega) (by omega) (by omega), e0, e1, e2, e3]
    have hc : (240 + c.toNat / 262144) % 8 * 262144 + (128 + c.toNat / 4096 % 64) % 64 * 4096 +
        (128 + c.toNat / 64 % 64) % 64 * 64 + (128 + c.toNat % 64) % 64 = c.toNat := by omega
    rw [hc, Char.ofNat_toNat]
    rfl

theorem EncodeRune_length_pos (c : Char) : 0 < (EncodeRune c).length := by
  unfold EncodeRune
  split_ifs <;> simp

theorem utf8Encode_cons (c : Char) (cs : List Char) :
    utf8Encode (c :: cs) = EncodeRune c ++ utf8Encode cs := by
  simp [utf8Encode]

theorem decodeItemsAux_utf8Encode : ∀ (cs : List Char) (fuel : Nat),
    (utf8Encode cs).length ≤ fuel → decodeItemsAux fuel (utf8Encode cs) = cs.map some := by
  intro cs
  induction cs with
  | nil =>
    intro fuel _
    cases fuel <;> rfl
  | cons c cs ih =>
    intro fuel hfuel
    rw [utf8Encode_cons] at hfuel ⊢
    have hpos := EncodeRune_length_pos c
    rw [List.length_append] at hfuel
    cases fuel with
    | zero => omega
    | succ fuel =>
      cases he : EncodeRune c with
      | nil => rw [he] at hpos; simp at hpos
      | cons b bs =>
        have hd := DecodeRune_EncodeRune c (utf8Encode cs)
        rw [he] at hd hfuel
        simp only [List.cons_append] at hd ⊢
        rw [decodeItemsAux, hd]
        simp only [List.map_cons, List.cons.injEq, true_and]
        have hdrop : (b :: (bs ++ utf8Encode cs)).drop (b :: bs).length = utf8Encode cs := by
          rw [← List.cons_append, List.drop_left]
        rw [hdrop]
        apply ih
        simp only [List.length_cons] at hfuel
        omega

theorem decodeItems_utf8Encode (cs : List Char) : decodeItems (utf8Encode cs) = cs.map some :=
  decodeItemsAux_utf8Encode cs _ (le_refl _)

/-- Decoding the UTF-8 encoding of a text gives the text back. -/
theorem utf8Decode_utf8Encode (cs : List Char) : utf8Decode (utf8Encode cs) = cs := by
  rw [utf8Decode, decodeItems_utf8Encode, List.map_map]
  exact (List.map_congr_left fun _ _ => rfl).trans (List.map_id cs)

theorem ValidString_utf8Encode (cs : List Char) : ValidString (utf8Encode cs) = true := by
  simp [ValidString, decodeItems_utf8Encode]

theorem coerceUTF8_utf8Encode (cs : List Char) : coerceUTF8 (utf8Encode cs) = utf8Encode cs := by
  simp [coerceUTF8, utf8Decode_utf8Encode]

theorem coerceUTF8_idem (s : List Byte) : coerceUTF8 (coerceUTF8 s) = coerceUTF8 s :=
  coerceUTF8_utf8Encode _

theorem coerceUTF8_ne_nil (s : List Byte) (h : s ≠ []) : coerceUTF8 s ≠ [] := by
  cases s with
  | nil => exact absurd rfl h
  | cons b bs =>
    have hpos := EncodeRune_length_pos ((DecodeRune (b :: bs)).1.getD (Char.ofNat 65533))
    intro h0
    have hl := congrArg List.length h0
    simp only [coerceUTF8, utf8Decode, decodeItems, List.length_cons, decodeItemsAux,
      List.map_cons, utf8Encode_cons, List.length_append, List.length_nil] at hl
    omega

/-! ## What decodes as a code point is the encoding of that code point -/

theorem byte_eq (n : Nat) (b : Byte) (h : n = b.val) : byte n = b := by
  apply Fin.ext
  rw [byte_val n (by have := b.isLt; omega), h]

theorem EncodeRune_one (p0 : Byte) (h0 : p0.val < 128) :
    EncodeRune (Char.ofNat p0.val) = [p0] := by
  have hv : (Char.ofNat p0.val).toNat = p0.val :=
    Char_toNat_ofNat _ (Or.inl (by omega))
  unfold EncodeRune
  rw [hv, if_pos h0, byte_eq _ p0 rfl]

theorem EncodeRune_two (p0 b1 : Byte) (h0 : 194 ≤ p0.val ∧ p0.val < 224)
    (h1 : 128 ≤ b1.val ∧ b1.val ≤ 191) :
    EncodeRune (Char.ofNat (p0.val % 32 * 64 + b1.val % 64)) = [p0, b1] := by
  have hv : (Char.ofNat (p0.val % 32 * 64 + b1.val % 64)).toNat =
      p0.val % 32 * 64 + b1.val % 64 :=
    Char_toNat_ofNat _ (Or.inl (by omega))
  unfold EncodeRune
  rw [hv, if_neg (by omega), if_pos (by omega), byte_eq _ p0 (by omega), byte_eq _ b1 (by omega)]

theorem EncodeRune_three (p0 b1 b2 : Byte) (h0 : 224 ≤ p0.val ∧ p0.val < 240)
    (h1 : 128 ≤ b1.val ∧ b1.val ≤ 191 ∧ (p0.val = 224 → 160 ≤ b1.val) ∧
      (p0.val = 237 → b1.val ≤ 159))
    (h2 : 128 ≤ b2.val ∧ b2.val ≤ 191) :
    EncodeRune (Char.ofNat (p0.val % 16 * 4096 + b1.val % 64 * 64 + b2.val % 64)) =
      [p0, b1, b2] := by
  have hv : (Char.ofNat (p0.val % 16 * 4096 + b1.val % 64 * 64 + b2.val % 64)).toNat =
      p0.val % 16 * 4096 + b1.val % 64 * 64 + b2.val % 64 := by
    apply Char_toNat_ofNat
    unfold Nat.isValidChar
    omega
  unfold EncodeRune
  rw [hv, if_neg (by omega), if_neg (by omega), if_pos (by omega), byte_eq _ p0 (by omega),
    byte_eq _ b1 (by omega), byte_eq _ b2 (by omega)]

theorem EncodeRune_four (p0 b1 b2 b3 : Byte) (h0 : 240 ≤ p0.val ∧ p0.val ≤ 244)
    (h1 : 128 ≤ b1.val ∧ b1.val ≤ 191 ∧ (p0.val = 240 → 144 ≤ b1.val) ∧
      (p0.val = 244 → b1.val ≤ 143))
    (h2 : 128 ≤ b2.val ∧ b2.val ≤ 191) (h3 : 128 ≤ b3.val ∧ b3.val ≤ 191) :
    EncodeRune (Char.ofNat (p0.val % 8 * 262144 + b1.val % 64 * 4096 + b2.val % 64 * 64 +
      b3.val % 64)) = [p0, b1, b2, b3] := by
  have hv : (Char.ofNat (p0.val % 8 * 262144 + b1.val % 64 * 4096 + b2.val % 64 * 64 +
      b3.val % 64)).toNat =
      p0.val % 8 * 262144 + b1.val % 64 * 4096 + b2.val % 64 * 64 + b3.val % 64 := by
    apply Char_toNat_ofNat
    unfold Nat.isValidChar
    omega
  unfold EncodeRune
  rw [hv, if_neg (by omega), if_neg (by omega), if_neg (by omega), byte_eq _ p0 (by omega),
    byte_eq _ b1 (by omega), byte_eq _ b2 (by omega), byte_eq _ b3 (by omega)]

/-- What `DecodeRune` takes for a code point is the encoding of that code point. -/
theorem DecodeRune_some (p : List Byte) (c : Char) (n : Nat) (h : DecodeRune p = (some c, n)) :
    ∃ tail, p = EncodeRune c ++ tail ∧ n = (EncodeRune c).length := by
  cases p with
  | nil => simp [DecodeRune] at h
  | cons p0 rest =>
    by_cases h0 : p0.val < 128
    · rw [DecodeRune_one _ _ h0] at h
      simp only [Prod.mk.injEq, Option.some.injEq] at h
      obtain ⟨rfl, rfl⟩ := h
      rw [EncodeRune_one p0 h0]
      exact ⟨rest, rfl, rfl⟩
    · by_cases hbad : p0.val < 194 ∨ 244 < p0.val
      · simp only [DecodeRune] at h
        rw [if_neg h0, if_pos hbad] at h
        simp at h
      · simp only [DecodeRune] at h
        rw [if_neg h0, if_neg hbad] at h
        generalize hsz : (if p0.val < 224 then 2 else if p0.val < 240 then 3 else 4) = sz at h
        generalize hlo : (if p0.val = 224 then 160 else if p0.val = 240 then 144 else 128) = lo
          at h
        generalize hhi : (if p0.val = 237 then 159 else if p0.val = 244 then 143 else 191) = hi
          at h
        have fsz : (p0.val < 224 → sz = 2) ∧ (224 ≤ p0.val → p0.val < 240 → sz = 3) ∧
            (240 ≤ p0.val → sz = 4) := by
          subst hsz; split_ifs <;> omega
        have flo : (p0.val = 224 → lo = 160) ∧ (p0.val = 240 → lo = 144) ∧ 128 ≤ lo := by
          subst hlo; split_ifs <;> omega
        have fhi : (p0.val = 237 → hi = 159) ∧ (p0.val = 244 → hi = 143) ∧ hi ≤ 191 := by
          subst hhi; split_ifs <;> omega
        push_neg at hbad
        by_cases hlen : rest.length + 1 < sz
        · rw [if_pos hlen] at h
          simp at h
        · rw [if_neg hlen] at h
          cases rest with
          | nil => simp at h
          | cons b1 rest1 =>
            simp only [] at h
            by_cases hb1 : b1.val < lo ∨ hi < b1.val
            · rw [if_pos hb1] at h
              simp at h
            · rw [if_neg hb1] at h
              push_neg at hb1
              by_cases hs2 : sz ≤ 2
              · rw [if_pos hs2] at h
                simp only [Prod.mk.injEq, Option.some.injEq] at h
                obtain ⟨rfl, rfl⟩ := h
                rw [EncodeRune_two p0 b1 (by omega) (by omega)]
                exact ⟨rest1, rfl, rfl⟩
              · rw [if_neg hs2] at h
                cases rest1 with
                | nil => simp at h
                | cons b2 rest2 =>
                  simp only [] at h
                  by_cases hb2 : b2.val < 128 ∨ 191 < b2.val
                  · rw [if_pos hb2] at h
                    simp at h
                  · rw [if_neg hb2] at h
                    push_neg at hb2
                    by_cases hs3 : sz ≤ 3
                    · rw [if_pos hs3] at h
                      simp only [Prod.mk.injEq, Option.some.injEq] at h
                      obtain ⟨rfl, rfl⟩ := h
                      rw [EncodeRune_three p0 b1 b2 (by omega) (by omega) (by omega)]
                      exact ⟨rest2, rfl, rfl⟩
                    · rw [if_neg hs3] at h
                      cases rest2 with
                      | nil => simp at h
                      | cons b3 rest3 =>
                        simp only [] at h
                        by_cases hb3 : b3.val < 128 ∨ 191 < b3.val
                        · rw [if_pos hb3] at h
                          simp at h
                        · rw [if_neg hb3] at h
                          push_neg at hb3
                          simp only [Prod.mk.injEq, Option.some.injEq] at h
                          obtain ⟨rfl, rfl⟩ := h
                          rw [EncodeRune_four p0 b1 b2 b3 (by omega) (by omega) (by omega)
                            (by omega)]
                          exact ⟨rest3, rfl, rfl⟩

theorem decodeItemsAux_valid : ∀ (fuel : Nat) (s : List Byte), s.length ≤ fuel →
    (decodeItemsAux fuel s).all Option.isSome = true →
    utf8Encode ((decodeItemsAux fuel s).map fun r => r.getD (Char.ofNat 65533)) = s := by
  intro fuel
  induction fuel with
  | zero =>
    intro s hs _
    cases s with
    | nil => rfl
    | cons b bs => simp at hs
  | succ fuel ih =>
    intro s hs hall
    cases s with
    | nil => rfl
    | cons b bs =>
      rw [decodeItemsAux] at hall ⊢
      simp only [List.all_cons, Bool.and_eq_true] at hall
      obtain ⟨hfirst, hrest⟩ := hall
      obtain ⟨c, hc⟩ := Option.isSome_iff_exists.1 hfirst
      have hd : DecodeRune (b :: bs) = (some c, (DecodeRune (b :: bs)).2) := by rw [← hc]
      obtain ⟨tail, e1, e2⟩ := DecodeRune_some _ _ _ hd
      have hpos := EncodeRune_length_pos c
      have hdrop : (b :: bs).drop (DecodeRune (b :: bs)).2 = tail := by
        have := List.drop_left (EncodeRune c) tail
        rw [← e1, ← e2] at this
        exact this
      rw [hdrop] at hrest ⊢
      have hlen : tail.length ≤ fuel := by
        have := congrArg List.length e1
        simp only [List.length_cons, List.length_append] at this hs
        omega
      rw [hc]
      simp only [List.map_cons, Option.getD_some, utf8Encode_cons]
      rw [ih tail hlen hrest, ← e1]

/-- A valid string is the encoding of the text it decodes as. -/
theorem utf8Encode_utf8Decode (s : List Byte) (h : ValidString s = true) :
    utf8Encode (utf8Decode s) = s :=
  decodeItemsAux_valid s.length s (le_refl _) h

theorem coerceUTF8_of_valid (s : List Byte) (h : ValidString s = true) : coerceUTF8 s = s :=
  utf8Encode_utf8Decode s h

theorem coerceUTF8_text (s : String) : coerceUTF8 (s : GoString) = (s : GoString) :=
  coerceUTF8_utf8Encode s.data

theorem ValidString_text (s : String) : ValidString (s : GoString) = true :=
  ValidString_utf8Encode s.data

/-! ## Strings written by `Marshal` are read back -/

theorem hexVal_hexDigit (n : Nat) (h : n < 16) : hexVal (hexDigit n) = some n := by
  interval_cases n <;> decide

theorem unquote_escape_u (a b c d : Char) (rest : List Char) (rr : Nat)
    (h : hex4 a b c d = some rr) (hs : ¬ (55296 ≤ rr ∧ rr < 57344)) :
    unquote ('\\' :: 'u' :: a :: b :: c :: d :: rest) =
      (unquote rest).map fun r => (Char.ofNat rr :: r.1, r.2) := by
  rw [unquote.eq_def]
  simp [h, hs]

theorem unquote_quote (rest : List Char) : unquote ('"' :: rest) = some ([], rest) := by
  rw [unquote.eq_def]
  simp

theorem unquote_escape (e ch : Char) (rest : List Char) (he : e ≠ 'u')
    (h : simpleEscape e = some ch) :
    unquote ('\\' :: e :: rest) = (unquote rest).map fun r => (ch :: r.1, r.2) := by
  rw [unquote.eq_def]
  simp [h, he]

theorem unquote_plain (c : Char) (rest : List Char) (h1 : c ≠ '"') (h2 : c ≠ '\\')
    (h3 : ¬ c.toNat < 32) :
    unquote (c :: rest) = (unquote rest).map fun r => (c :: r.1, r.2) := by
  rw [unquote.eq_def]
  simp [h1, h2, h3]

theorem hex4_byte (n : Nat) (h : n < 256) :
    hex4 '0' '0' (hexDigit (n / 16)) (hexDigit (n % 16)) = some n := by
  have h1 : hexVal (hexDigit (n / 16)) = some (n / 16) := hexVal_hexDigit _ (by omega)
  have h2 : hexVal (hexDigit (n % 16)) = some (n % 16) := hexVal_hexDigit _ (by omega)
  have h0 : hexVal '0' = some 0 := by decide
  simp only [hex4, h0, h1, h2]
  congr 1
  omega

theorem unquote_appendRune (c : Char) (rest : List Char) :
    unquote (appendRune c ++ rest) = (unquote rest).map fun r => (c :: r.1, r.2) := by
  unfold appendRune
  split_ifs with h1 h2 h3 h4 h5 h6 h7 h8
  · rcases h1 with rfl | rfl
    · exact unquote_escape _ _ _ (by decide) (by decide)
    · exact unquote_escape _ _ _ (by decide) (by decide)
  · subst h2; exact unquote_escape _ _ _ (by decide) (by decide)
  · subst h3; exact unquote_escape _ _ _ (by decide) (by decide)
  · subst h4; exact unquote_escape _ _ _ (by decide) (by decide)
  · subst h5; exact unquote_escape _ _ _ (by decide) (by decide)
  · subst h6; exact unquote_escape _ _ _ (by decide) (by decide)
  · have hn : c.toNat < 256 := by
      rcases h7 with h | rfl | rfl | rfl
      · omega
      · decide
      · decide
      · decide
    have := unquote_escape_u '0' '0' (hexDigit (c.toNat / 16)) (hexDigit (c.toNat % 16)) rest
      c.toNat (hex4_byte _ hn) (by omega)
    simpa [Char.ofNat_toNat] using this
  · rcases h8 with rfl | rfl
    · exact unquote_escape_u '2' '0' '2' _ rest 8232 (by decide) (by decide)
    · exact unquote_escape_u '2' '0' '2' _ rest 8233 (by decide) (by decide)
  · push_neg at h1 h7
    exact unquote_plain c rest h1.2 h1.1 (by omega)

theorem unquote_appendItem (r : Option Char) (rest : List Char) :
    unquote (appendItem r ++ rest) =
      (unquote rest).map fun x => (r.getD (Char.ofNat 65533) :: x.1, x.2) := by
  cases r with
  | some c => exact unquote_appendRune c rest
  | none => exact unquote_escape_u 'f' 'f' 'f' 'd' rest 65533 (by decide) (by decide)

theorem unquote_items (items : List (Option Char)) (rest : List Char) :
    unquote (items.flatMap appendItem ++ '"' :: rest) =
      some (items.map (fun r => r.getD (Char.ofNat 65533)), rest) := by
  induction items with
  | nil => exact unquote_quote rest
  | cons r items ih =>
    rw [List.flatMap_cons, List.append_assoc, unquote_appendItem, ih]
    rfl

/-- What the string encoder writes for a Go string reads as the text the string decodes
to, a byte that starts no valid encoding as U+FFFD. -/
theorem Quotes_appendBody (s : GoString) : Quotes (appendBody s) (utf8Decode s) :=
  fun rest => unquote_items (decodeItems s) rest

theorem Quotes_plain (cs : List Char)
    (h : ∀ c ∈ cs, c ≠ '"' ∧ c ≠ '\\' ∧ ¬ c.toNat < 32) : Quotes cs cs := by
  intro rest
  induction cs with
  | nil => exact unquote_quote rest
  | cons c cs ih =>
    obtain ⟨h1, h2, h3⟩ := h c (List.mem_cons_self _ _)
    rw [List.cons_append, unquote_plain c _ h1 h2 h3,
      ih fun x hx => h x (List.mem_cons_of_mem _ hx)]
    rfl

/-! ## Integers written by `Marshal` are read back -/

theorem digitChar_facts (d : Nat) (h : d < 10) :
    (Nat.digitChar d).isDigit = true ∧ (Nat.digitChar d).toNat - 48 = d ∧
      (Nat.digitChar d = '0' → d = 0) := by
  interval_cases d <;> decide

theorem decimalValue_append (ds : List Char) (c : Char) :
    decimalValue (ds ++ [c]) = decimalValue ds * 10 + (c.toNat - 48) := by
  simp [decimalValue, List.foldl_append]

/-- The digits `Nat.toDigitsCore` puts in front of what it was given: at least one, all
decimal digits, no leading zero except for zero itself, and they write `n`. -/
theorem toDigitsCore_spec (fuel : Nat) : ∀ (n : Nat) (ds : List Char), n < fuel →
    ∃ ds1 : List Char, Nat.toDigitsCore 10 fuel n ds = ds1 ++ ds ∧ ds1 ≠ [] ∧
      (∀ c ∈ ds1, c.isDigit = true) ∧ decimalValue ds1 = n ∧
      (ds1.head? = some '0' → ds1 = ['0']) := by
  induction fuel with
  | zero => intro n ds h; omega
  | succ fuel ih =>
    intro n ds h
    have hd := digitChar_facts (n % 10) (Nat.mod_lt _ (by decide))
    unfold Nat.toDigitsCore
    by_cases h0 : n / 10 = 0
    · refine ⟨[Nat.digitChar (n % 10)], by simp [h0], by simp, ?_, ?_, ?_⟩
      · intro c hc
        simp at hc
        rw [hc]; exact hd.1
      · simp [decimalValue, hd.2.1]; omega
      · intro hh
        simp at hh
        simp [hh]
    · obtain ⟨ds1, e1, ne1, dig1, val1, head1⟩ :=
        ih (n / 10) (Nat.digitChar (n % 10) :: ds) (by omega)
      refine ⟨ds1 ++ [Nat.digitChar (n % 10)], by simp [h0, e1], by simp, ?_, ?_, ?_⟩
      · intro c hc
        rcases List.mem_append.1 hc with hc | hc
        · exact dig1 c hc
        · simp at hc; rw [hc]; exact hd.1
      · rw [decimalValue_append, val1, hd.2.1]; omega
      · intro hh
        exfalso
        cases ds1 with
        | nil => exact ne1 rfl
        | cons a t =>
          simp at hh
          have := head1 (by simp [hh])
          rw [this] at val1
          simp [decimalValue] at val1
          omega

theorem toDigits_spec (n : Nat) :
    Nat.toDigits 10 n ≠ [] ∧ (∀ c ∈ Nat.toDigits 10 n, c.isDigit = true) ∧
      decimalValue (Nat.toDigits 10 n) = n ∧
      ((Nat.toDigits 10 n).head? = some '0' → Nat.toDigits 10 n = ['0']) := by
  obtain ⟨ds1, e1, ne1, dig1, val1, head1⟩ := toDigitsCore_spec (n + 1) n [] (by omega)
  have : Nat.toDigits 10 n = ds1 := by simp [Nat.toDigits, e1]
  rw [this]
  exact ⟨ne1, dig1, val1, head1⟩

theorem span_isDigit_append (ds : List Char) (c : Char) (rest : List Char)
    (hds : ∀ x ∈ ds, x.isDigit = true) (hc : c.isDigit = false) :
    (ds ++ c :: rest).span Char.isDigit = (ds, c :: rest) := by
  rw [List.span_eq_take_drop, List.takeWhile_append_of_pos hds, List.dropWhile_append_of_pos hds]
  simp [List.takeWhile_cons, List.dropWhile_cons, hc]

theorem scanInt_toDigits (n : Nat) (c : Char) (rest : List Char) (hc : c.isDigit = false) :
    scanInt (Nat.toDigits 10 n ++ c :: rest) = some (Nat.toDigits 10 n, c :: rest) := by
  obtain ⟨ne, dig, -, head⟩ := toDigits_spec n
  cases hds : Nat.toDigits 10 n with
  | nil => exact absurd hds ne
  | cons d t =>
    rw [hds] at dig head
    have hd : d.isDigit = true := dig d (by simp)
    have ht : ∀ x ∈ t, x.isDigit = true := fun x hx => dig x (by simp [hx])
    by_cases h0 : d = '0'
    · have := head (by simp [h0])
      simp at this
      simp [scanInt, h0, this.2]
    · have hsp := span_isDigit_append t c rest ht hc
      simp only [scanInt, List.cons_append, h0, if_false, hd, if_true, hsp]

theorem scanNumber_appendInt (v : Int) (rest : List Char) :
    scanNumber (appendInt v ++ ',' :: rest) = some (appendInt v, ',' :: rest) := by
  have hc : (',' : Char).isDigit = false := by decide
  unfold appendInt
  by_cases hv : v < 0
  · simp only [hv, if_true, scanNumber, List.cons_append, List.head?_cons, List.tail_cons,
      scanInt_toDigits _ _ _ hc]
    simp [scanFrac, scanExp]
  · obtain ⟨ne, dig, -, -⟩ := toDigits_spec v.toNat
    have hh : (Nat.toDigits 10 v.toNat ++ ',' :: rest).head? ≠ some '-' := by
      cases hds : Nat.toDigits 10 v.toNat with
      | nil => exact absurd hds ne
      | cons d t =>
        have hd : d.isDigit = true := dig d (by simp [hds])
        simp only [List.cons_append, List.head?_cons, ne_eq, Option.some.injEq]
        rintro rfl
        exact absurd hd (by decide)
    simp only [hv, if_false, scanNumber, hh, scanInt_toDigits _ _ _ hc]
    simp [scanFrac, scanExp]

theorem parseInt64_digits (neg : Bool) (ds : List Char) (v : Int64) (ne : ds ≠ [])
    (dig : ∀ c ∈ ds, c.isDigit = true) (hh : ds.head? ≠ some '-')
    (hval : (if neg then -(decimalValue ds : Int) else (decimalValue ds : Int)) = v.val) :
    parseInt64 (if neg then '-' :: ds else ds) = some v := by
  have hall : ds.all Char.isDigit = true := List.all_eq_true.2 dig
  obtain ⟨v, hv⟩ := v
  cases neg with
  | true =>
    simp only [if_true] at hval
    simp only [parseInt64, if_true, List.head?_cons, List.tail_cons, decide_True]
    rw [if_pos ⟨ne, hall⟩]
    simp only [hval]
    rw [dif_pos hv]
  | false =>
    simp only [Bool.false_eq_true, if_false] at hval
    have hd : decide (ds.head? = some '-') = false := by simpa using hh
    simp only [parseInt64, Bool.false_eq_true, if_false, hd]
    rw [if_pos ⟨ne, hall⟩]
    simp only [hval]
    rw [dif_pos hv]

theorem parseInt64_appendInt (v : Int64) : parseInt64 (appendInt v.val) = some v := by
  unfold appendInt
  by_cases hv : v.val < 0
  · obtain ⟨ne, dig, val, -⟩ := toDigits_spec v.val.natAbs
    have := parseInt64_digits true _ v ne dig (by
      intro h
      have := dig '-' (by
        cases hds : Nat.toDigits 10 v.val.natAbs with
        | nil => exact absurd hds ne
        | cons d t => rw [hds] at h; simp at h; simp [h])
      exact absurd this (by decide)) (by simp only [if_true]; rw [val]; omega)
    simpa [hv] using this
  · obtain ⟨ne, dig, val, -⟩ := toDigits_spec v.val.toNat
    have := parseInt64_digits false _ v ne dig (by
      intro h
      have := dig '-' (by
        cases hds : Nat.toDigits 10 v.val.toNat with
        | nil => exact absurd hds ne
        | cons d t => rw [hds] at h; simp at h; simp [h])
      exact absurd this (by decide)) (by simp only [Bool.false_eq_true, if_false]; rw [val]; omega)
    simpa [hv] using this

/-! ## The text written by `Marshal` is read back -/

theorem parseValue_string (fuel depth : Nat) (body s rest : List Char) (hs : Quotes body s) :
    parseValue (fuel + 1) depth ('"' :: (body ++ '"' :: rest)) = some (JVal.str s, rest) := by
  rw [parseValue]
  simp [skipSpace, isSpace, hs rest]

theorem numberStart_facts (c : Char) (h : c = '-' ∨ c.isDigit = true) :
    isSpace c = false ∧ c ≠ '\x7b' ∧ c ≠ '[' ∧ c ≠ '"' ∧ c ≠ 't' ∧ c ≠ 'f' ∧ c ≠ 'n' := by
  rcases h with rfl | h
  · decide
  · refine ⟨?_, ?_, ?_, ?_, ?_, ?_, ?_⟩
    · cases hs : isSpace c with
      | false => rfl
      | true =>
        simp only [isSpace, Bool.or_eq_true, decide_eq_true_eq] at hs
        rcases hs with ((rfl | rfl) | rfl) | rfl <;> exact absurd h (by decide)
    all_goals (rintro rfl; exact absurd h (by decide))

theorem appendInt_head (v : Int) :
    ∃ c tl, appendInt v = c :: tl ∧ (c = '-' ∨ c.isDigit = true) := by
  unfold appendInt
  by_cases hv : v < 0
  · exact ⟨'-', Nat.toDigits 10 v.natAbs, by simp [hv], Or.inl rfl⟩
  · obtain ⟨ne, dig, -, -⟩ := toDigits_spec v.toNat
    cases hds : Nat.toDigits 10 v.toNat with
    | nil => exact absurd hds ne
    | cons d t => exact ⟨d, t, by simp [hv, hds], Or.inr (dig d (by simp [hds]))⟩

theorem parseValue_int (fuel depth : Nat) (v : Int) (rest : List Char) :
    parseValue (fuel + 1) depth (appendInt v ++ ',' :: rest) =
      some (JVal.num (appendInt v), ',' :: rest) := by
  have hscan := scanNumber_appendInt v rest
  obtain ⟨c, tl, e, hc⟩ := appendInt_head v
  obtain ⟨h1, h2, h3, h4, h5, h6, h7⟩ := numberStart_facts c hc
  rw [e] at hscan ⊢
  rw [parseValue]
  simp only [List.cons_append] at hscan ⊢
  simp only [skipSpace, h1, Bool.false_eq_true, if_false, h2, h3, h4, h5, h6, h7, hscan,
    Option.map_some']

theorem parseMembers_string (fuel depth : Nat) (acc : List (List Char × JVal))
    (kb key body s rest : List Char) (hk : Quotes kb key) (hs : Quotes body s) :
    parseMembers (fuel + 2) depth acc
        ('"' :: (kb ++ '"' :: ':' :: '"' :: (body ++ '"' :: ',' :: '"' :: rest))) =
      parseMembers (fuel + 1) depth ((key, JVal.str s) :: acc) ('"' :: rest) := by
  rw [parseMembers]
  simp [hk _, skipSpace, isSpace, parseValue_string _ _ _ _ _ hs]

theorem parseMembers_int (fuel depth : Nat) (acc : List (List Char × JVal))
    (kb key : List Char) (v : Int) (rest : List Char) (hk : Quotes kb key) :
    parseMembers (fuel + 2) depth acc
        ('"' :: (kb ++ '"' :: ':' :: (appendInt v ++ ',' :: '"' :: rest))) =
      parseMembers (fuel + 1) depth ((key, JVal.num (appendInt v)) :: acc) ('"' :: rest) := by
  rw [parseMembers]
  simp [hk _, skipSpace, isSpace, parseValue_int]

theorem parseMembers_last (fuel depth : Nat) (acc : List (List Char × JVal))
    (kb key body s rest : List Char) (hk : Quotes kb key) (hs : Quotes body s) :
    parseMembers (fuel + 2) depth acc
        ('"' :: (kb ++ '"' :: ':' :: '"' :: (body ++ '"' :: '\x7d' :: rest))) =
      some (JVal.obj ((key, JVal.str s) :: acc).reverse, rest) := by
  rw [parseMembers]
  simp [hk _, skipSpace, isSpace, parseValue_string _ _ _ _ _ hs]

theorem Marshal_eq (p : Product) : Marshal p = .ok (marshalText p) := by
  simp [Marshal, marshalText, marshalChars, appendString]

theorem parseValue_object (fuel : Nat) (rest : List Char) :
    parseValue (fuel + 1) 0 ('\x7b' :: '"' :: rest) = parseMembers fuel 1 [] ('"' :: rest) := by
  rw [parseValue]
  simp [skipSpace, isSpace, maxNestingDepth]

theorem parseValue_marshalChars (n : Nat) (p : Product) :
    parseValue (n + 9) 0 (marshalChars p) = some (JVal.obj (marshalMembers p), []) := by
  unfold marshalChars
  rw [parseValue_object (n + 8),
    parseMembers_string (n + 6) _ _ _ _ _ _ _ (Quotes_plain _ (by decide)) (Quotes_appendBody _),
    parseMembers_string (n + 5) _ _ _ _ _ _ _ (Quotes_plain _ (by decide)) (Quotes_appendBody _),
    parseMembers_string (n + 4) _ _ _ _ _ _ _ (Quotes_plain _ (by decide)) (Quotes_appendBody _),
    parseMembers_string (n + 3) _ _ _ _ _ _ _ (Quotes_plain _ (by decide)) (Quotes_appendBody _),
    parseMembers_int (n + 2) _ _ _ _ _ _ (Quotes_plain _ (by decide)),
    parseMembers_string (n + 1) _ _ _ _ _ _ _ (Quotes_plain _ (by decide)) (Quotes_appendBody _),
    parseMembers_last n _ _ _ _ _ _ _ (Quotes_plain _ (by decide)) (Quotes_appendBody _)]
  rfl

theorem marshalChars_length (p : Product) : 8 ≤ (marshalChars p).length := by
  simp [marshalChars]
  omega

theorem marshalText_ne_nil (p : Product) : marshalText p ≠ [] := by
  intro h
  have h1 := congrArg utf8Decode h
  rw [marshalText, utf8Decode_utf8Encode] at h1
  have h2 := marshalChars_length p
  rw [h1] at h2
  simp [utf8Decode, decodeItems, decodeItemsAux] at h2

theorem parseText_marshalChars (p : Product) :
    parseText (marshalChars p) = some (JVal.obj (marshalMembers p)) := by
  obtain ⟨n, hn⟩ := Nat.exists_eq_add_of_le (marshalChars_length p)
  have : (marshalChars p).length + 1 = (n + 9) := by omega
  simp [parseText, this, parseValue_marshalChars, skipSpace]

theorem parseJSON_marshalText (p : Product) :
    parseJSON (marshalText p) = some (JVal.obj (marshalMembers p)) := by
  rw [parseJSON, marshalText, utf8Decode_utf8Encode, parseText_marshalChars]

theorem decode_marshalMembers (p q : Product) :
    (marshalMembers p).foldl decodeMember (q, false) = (p.coerced, false) := by
  simp only [marshalMembers, List.foldl_cons, List.foldl_nil]
  have e1 : lookupField "ID".data = some Field.ID := by decide
  have e2 : lookupField "type".data = some Field.Type_ := by decide
  have e3 : lookupField "farmer".data = some Field.Farmer := by decide
  have e4 : lookupField "owner".data = some Field.Owner := by decide
  have e5 : lookupField "timestamp".data = some Field.Timestamp := by decide
  have e6 : lookupField "marketPriceHash".data = some Field.MarketPriceHash := by decide
  have e7 : lookupField "certificationIPFSHash".data = some Field.CertificationIPFSHash := by
    decide
  simp only [decodeMember, e1, e2, e3, e4, e5, e6, e7, decodeField, parseInt64_appendInt,
    Option.map_some']
  rfl

/-- Round trip: what `Marshal` writes for a product, `Unmarshal` reads back as that product
with its strings coerced to valid UTF-8, whatever the target held before. -/
theorem Unmarshal_Marshal (p q : Product) (text : Bytes) (h : Marshal p = .ok text) :
    Unmarshal text q = .ok p.coerced := by
  rw [Marshal_eq] at h
  cases h
  simp [Unmarshal, parseJSON_marshalText, decode_marshalMembers]

theorem Product.coerced_coerced (p : Product) : p.coerced.coerced = p.coerced := by
  simp only [Product.coerced, coerceUTF8_idem]

theorem skipSpace_length_le (cs : List Char) : (skipSpace cs).length ≤ cs.length := by
  induction cs with
  | nil => simp [skipSpace]
  | cons c cs ih =>
    unfold skipSpace
    split_ifs
    · simp only [List.length_cons]; omega
    · exact le_refl _

theorem map_cons_eq_some {o : Option (List Char × List Char)} {x : Char} {s rest : List Char}
    (h : (o.map fun r => (x :: r.1, r.2)) = some (s, rest)) : ∃ s1, o = some (s1, rest) := by
  cases o with
  | none => simp at h
  | some r =>
    simp only [Option.map_some', Option.some.injEq, Prod.mk.injEq] at h
    exact ⟨r.1, by rw [← h.2]⟩

theorem unquote_length_lt : ∀ (n : Nat) (cs : List Char), cs.length ≤ n →
    ∀ s rest, unquote cs = some (s, rest) → rest.length < cs.length := by
  intro n
  induction n with
  | zero =>
    intro cs hn s rest h
    cases cs with
    | nil => simp [unquote] at h
    | cons c cs => simp at hn
  | succ n ih =>
    intro cs hn s rest h
    rw [unquote.eq_def] at h
    cases cs with
    | nil => simp at h
    | cons c cs =>
      simp only [List.length_cons] at hn ⊢
      simp only at h
      split_ifs at h with h1 h2 h3
      · simp only [Option.some.injEq, Prod.mk.injEq] at h
        rw [← h.2]; omega
      · cases cs with
        | nil => simp at h
        | cons e cs1 =>
          simp only [List.length_cons] at hn ⊢
          simp only at h
          split_ifs at h with h4
          · rcases cs1 with _ | ⟨a, _ | ⟨b, _ | ⟨c2, _ | ⟨d, cs2⟩⟩⟩⟩
            · simp at h
            · simp at h
            · simp at h
            · simp at h
            · simp only [List.length_cons] at hn ⊢
              simp only at h
              cases hx : hex4 a b c2 d with
              | none => rw [hx] at h; simp at h
              | some rr =>
                rw [hx] at h
                simp only at h
                split_ifs at h with h5
                · cases hp : surrogatePair rr cs2 with
                  | none =>
                    rw [hp] at h
                    obtain ⟨s1, hs1⟩ := map_cons_eq_some h
                    have := ih cs2 (by omega) s1 rest hs1
                    omega
                  | some ch =>
                    rw [hp] at h
                    simp only at h
                    obtain ⟨s1, hs1⟩ := map_cons_eq_some h
                    rcases cs2 with _ | ⟨x1, _ | ⟨x2, _ | ⟨x3, _ | ⟨x4, _ | ⟨x5, _ | ⟨x6, cs3⟩⟩⟩⟩⟩⟩
                    all_goals first
                      | (simp at hs1; done)
                      | (simp only [List.length_cons] at hn ⊢
                         have := ih cs3 (by omega) s1 rest hs1
                         omega)
                · obtain ⟨s1, hs1⟩ := map_cons_eq_some h
                  have := ih cs2 (by omega) s1 rest hs1
                  omega
          · cases hse : simpleEscape e with
            | none => rw [hse] at h; simp at h
            | some ch =>
              rw [hse] at h
              obtain ⟨s1, hs1⟩ := map_cons_eq_some h
              have := ih cs1 (by omega) s1 rest hs1
              omega
      · obtain ⟨s1, hs1⟩ := map_cons_eq_some h
        have := ih cs (by omega) s1 rest hs1
        omega

theorem span_snd_length_le (cs : List Char) : (cs.span Char.isDigit).2.length ≤ cs.length := by
  rw [List.span_eq_take_drop]
  exact (List.dropWhile_sublist _).length_le

theorem scanInt_length_lt {cs ip rest : List Char} (h : scanInt cs = some (ip, rest)) :
    rest.length < cs.length := by
  cases cs with
  | nil => simp [scanInt] at h
  | cons d cs =>
    have := span_snd_length_le cs
    simp only [scanInt] at h
    split_ifs at h <;>
      simp only [Option.some.injEq, Prod.mk.injEq] at h <;>
      (obtain ⟨-, rfl⟩ := h; simp only [List.length_cons]; omega)

theorem scanFrac_length_le {cs fp rest : List Char} (h : scanFrac cs = some (fp, rest)) :
    rest.length ≤ cs.length := by
  cases cs with
  | nil => simp only [scanFrac, Option.some.injEq, Prod.mk.injEq] at h; rw [← h.2]
  | cons c cs =>
    have := span_snd_length_le cs
    simp only [scanFrac] at h
    split_ifs at h <;>
      simp only [Option.some.injEq, Prod.mk.injEq] at h <;>
      (obtain ⟨-, rfl⟩ := h; simp only [List.length_cons]; omega)

theorem scanExpDigits_length_le {cs ep rest : List Char}
    (h : scanExpDigits cs = some (ep, rest)) : rest.length ≤ cs.length := by
  have := span_snd_length_le cs
  simp only [scanExpDigits] at h
  split_ifs at h
  simp only [Option.some.injEq, Prod.mk.injEq] at h
  rw [← h.2]; exact this

theorem scanExp_length_le {cs ep rest : List Char} (h : scanExp cs = some (ep, rest)) :
    rest.length ≤ cs.length := by
  cases cs with
  | nil => simp only [scanExp, Option.some.injEq, Prod.mk.injEq] at h; rw [← h.2]
  | cons c cs =>
    simp only [scanExp] at h
    split_ifs at h with h1
    · cases cs with
      | nil => simp at h
      | cons s cs1 =>
        simp only at h
        split_ifs at h with h2
        · cases hd : scanExpDigits cs1 with
          | none => rw [hd] at h; simp at h
          | some r =>
            rw [hd] at h
            simp only [Option.map_some', Option.some.injEq, Prod.mk.injEq] at h
            have := @scanExpDigits_length_le cs1 r.1 r.2 hd
            rw [← h.2]; simp only [List.length_cons]; omega
        · cases hd : scanExpDigits (s :: cs1) with
          | none => rw [hd] at h; simp at h
          | some r =>
            rw [hd] at h
            simp only [Option.map_some', Option.some.injEq, Prod.mk.injEq] at h
            have := @scanExpDigits_length_le (s :: cs1) r.1 r.2 hd
            rw [← h.2]; simp only [List.length_cons] at this ⊢; omega
    · simp only [Option.some.injEq, Prod.mk.injEq] at h
      rw [← h.2]

theorem scanNumber_length_lt {cs lit rest : List Char} (h : scanNumber cs = some (lit, rest)) :
    rest.length < cs.length := by
  simp only [scanNumber] at h
  have hbody : (if cs.head? = some '-' then cs.tail else cs).length ≤ cs.length := by
    split_ifs
    · simp
    · exact le_refl _
  cases h1 : scanInt (if cs.head? = some '-' then cs.tail else cs) with
  | none => rw [h1] at h; simp at h
  | some r1 =>
    obtain ⟨ip, r1⟩ := r1
    rw [h1] at h
    simp only at h
    cases h2 : scanFrac r1 with
    | none => rw [h2] at h; simp at h
    | some r2 =>
      obtain ⟨fp, r2⟩ := r2
      rw [h2] at h
      simp only at h
      cases h3 : scanExp r2 with
      | none => rw [h3] at h; simp at h
      | some r3 =>
        obtain ⟨ep, r3⟩ := r3
        rw [h3] at h
        simp only [Option.some.injEq, Prod.mk.injEq] at h
        have := scanInt_length_lt h1
        have := scanFrac_length_le h2
        have := scanExp_length_le h3
        rw [← h.2]; omega

theorem scanLiteral_length_le {lit cs rest : List Char} (h : scanLiteral lit cs = some rest) :
    rest.length ≤ cs.length := by
  simp only [scanLiteral] at h
  split_ifs at h
  simp only [Option.some.injEq] at h
  rw [← h]; simp

theorem parseValue_zero (d : Nat) (cs : List Char) : parseValue 0 d cs = none := by
  rw [parseValue]

theorem parseMembers_zero (d : Nat) (acc : List (List Char × JVal)) (cs : List Char) :
    parseMembers 0 d acc cs = none := by
  rw [parseMembers]

theorem parseElements_zero (d : Nat) (acc : List JVal) (cs : List Char) :
    parseElements 0 d acc cs = none := by
  rw [parseElements]

/-- A successful run of the reader is reproduced with any bound on calls that is at least
the number of characters the run consumed. -/
theorem parse_fuel (g : Nat) :
    (∀ d cs v rest, parseValue g d cs = some (v, rest) →
      ∀ f, cs.length ≤ rest.length + f → parseValue f d cs = some (v, rest)) ∧
    (∀ d acc cs v rest, parseMembers g d acc cs = some (v, rest) →
      ∀ f, cs.length ≤ rest.length + f → parseMembers f d acc cs = some (v, rest)) ∧
    (∀ d acc cs v rest, parseElements g d acc cs = some (v, rest) →
      ∀ f, cs.length ≤ rest.length + f → parseElements f d acc cs = some (v, rest)) := by
  induction g with
  | zero =>
    refine ⟨?_, ?_, ?_⟩
    · intro d cs v rest h; rw [parseValue_zero] at h; cases h
    · intro d acc cs v rest h; rw [parseMembers_zero] at h; cases h
    · intro d acc cs v rest h; rw [parseElements_zero] at h; cases h
  | succ g ih =>
    obtain ⟨ihV, ihM, ihE⟩ := ih
    have progV : ∀ d cs v rest, parseValue g d cs = some (v, rest) → rest.length < cs.length := by
      intro d cs v rest h
      by_contra hc
      have := ihV d cs v rest h 0 (by omega)
      rw [parseValue_zero] at this; cases this
    have progM : ∀ d acc cs v rest, parseMembers g d acc cs = some (v, rest) →
        rest.length < cs.length := by
      intro d acc cs v rest h
      by_contra hc
      have := ihM d acc cs v rest h 0 (by omega)
      rw [parseMembers_zero] at this; cases this
    have progE : ∀ d acc cs v rest, parseElements g d acc cs = some (v, rest) →
        rest.length < cs.length := by
      intro d acc cs v rest h
      by_contra hc
      have := ihE d acc cs v rest h 0 (by omega)
      rw [parseElements_zero] at this; cases this
    refine ⟨?_, ?_, ?_⟩
    · intro d cs v rest h f hf
      rw [parseValue] at h
      have hsl := skipSpace_length_le cs
      cases hsk : skipSpace cs with
      | nil => rw [hsk] at h; simp at h
      | cons c r0 =>
        rw [hsk] at h hsl
        simp only [List.length_cons] at hsl
        simp only at h
        by_cases hb : c = '\x7b'
        · subst hb
          simp only [if_true] at h
          by_cases hdep : maxNestingDepth ≤ d
          · simp [hdep] at h
          · simp only [hdep, if_false] at h
            have hsl1 := skipSpace_length_le r0
            cases hsk1 : skipSpace r0 with
            | nil => rw [hsk1] at h; simp at h
            | cons c1 r1 =>
              rw [hsk1] at h hsl1
              simp only [List.length_cons] at hsl1
              simp only at h
              by_cases hc1 : c1 = '\x7d'
              · simp only [hc1, if_true, Option.some.injEq, Prod.mk.injEq] at h
                obtain ⟨rfl, rfl⟩ := h
                obtain ⟨f1, rfl⟩ : ∃ f1, f = f1 + 1 := ⟨f - 1, by omega⟩
                rw [parseValue]
                simp [hsk, hdep, hsk1, hc1]
              · simp only [hc1, if_false] at h
                have hp := progM _ _ _ _ _ h
                simp only [List.length_cons] at hp
                obtain ⟨f1, rfl⟩ : ∃ f1, f = f1 + 1 := ⟨f - 1, by omega⟩
                rw [parseValue]
                simp only [hsk, hdep, hsk1, hc1, if_true, if_false]
                exact ihM _ _ _ _ _ h f1 (by simp only [List.length_cons]; omega)
        · simp only [hb, if_false] at h
          by_cases hbr : c = '['
          · subst hbr
            simp only [if_true] at h
            by_cases hdep : maxNestingDepth ≤ d
            · simp [hdep] at h
            · simp only [hdep, if_false] at h
              have hsl1 := skipSpace_length_le r0
              cases hsk1 : skipSpace r0 with
              | nil => rw [hsk1] at h; simp at h
              | cons c1 r1 =>
                rw [hsk1] at h hsl1
                simp only [List.length_cons] at hsl1
                simp only at h
                by_cases hc1 : c1 = ']'
                · simp only [hc1, if_true, Option.some.injEq, Prod.mk.injEq] at h
                  obtain ⟨rfl, rfl⟩ := h
                  obtain ⟨f1, rfl⟩ : ∃ f1, f = f1 + 1 := ⟨f - 1, by omega⟩
                  rw [parseValue]
                  simp [hsk, hdep, hsk1, hc1]
                · simp only [hc1, if_false] at h
                  have hp := progE _ _ _ _ _ h
                  simp only [List.length_cons] at hp
                  obtain ⟨f1, rfl⟩ : ∃ f1, f = f1 + 1 := ⟨f - 1, by omega⟩
                  rw [parseValue]
                  simp only [hsk, hb, hdep, hsk1, hc1, if_true, if_false]
                  exact ihE _ _ _ _ _ h f1 (by simp only [List.length_cons]; omega)
          · simp only [hbr, if_false] at h
            have hlen : rest.length < cs.length := by
              split_ifs at h with hq ht hf hn
              · cases hu : unquote r0 with
                | none => rw [hu] at h; simp at h
                | some r =>
                  rw [hu] at h
                  simp only [Option.map_some', Option.some.injEq, Prod.mk.injEq] at h
                  have := unquote_length_lt _ r0 (le_refl _) r.1 r.2 hu
                  rw [← h.2]; omega
              · cases hu : scanLiteral ['r', 'u', 'e'] r0 with
                | none => rw [hu] at h; simp at h
                | some r =>
                  rw [hu] at h
                  simp only [Option.map_some', Option.some.injEq, Prod.mk.injEq] at h
                  have := scanLiteral_length_le hu
                  rw [← h.2]; omega
              · cases hu : scanLiteral ['a', 'l', 's', 'e'] r0 with
                | none => rw [hu] at h; simp at h
                | some r =>
                  rw [hu] at h
                  simp only [Option.map_some', Option.some.injEq, Prod.mk.injEq] at h
                  have := scanLiteral_length_le hu
                  rw [← h.2]; omega
              · cases hu : scanLiteral ['u', 'l', 'l'] r0 with
                | none => rw [hu] at h; simp at h
                | some r =>
                  rw [hu] at h
                  simp only [Option.map_some', Option.some.injEq, Prod.mk.injEq] at h
                  have := scanLiteral_length_le hu
                  rw [← h.2]; omega
              · cases hu : scanNumber (c :: r0) with
                | none => rw [hu] at h; simp at h
                | some r =>
                  rw [hu] at h
                  simp only [Option.map_some', Option.some.injEq, Prod.mk.injEq] at h
                  have := @scanNumber_length_lt (c :: r0) r.1 r.2 hu
                  simp only [List.length_cons] at this
                  rw [← h.2]; omega
            obtain ⟨f1, rfl⟩ : ∃ f1, f = f1 + 1 := ⟨f - 1, by omega⟩
            rw [parseValue]
            simp only [hsk, hb, hbr, if_false]
            exact h
    · intro d acc cs v rest h f hf
      cases cs with
      | nil => rw [parseMembers] at h; cases h
      | cons q afterQuote =>
        rw [parseMembers] at h
        by_cases hq : q = '"'
        swap
        · simp [hq] at h
        subst hq
        simp only [if_true] at h
        cases hu : unquote afterQuote with
        | none => rw [hu] at h; simp at h
        | some r =>
          obtain ⟨key, afterKey⟩ := r
          rw [hu] at h
          simp only at h
          have hl1 := unquote_length_lt _ afterQuote (le_refl _) key afterKey hu
          have hl2 := skipSpace_length_le afterKey
          cases hsk : skipSpace afterKey with
          | nil => rw [hsk] at h; simp at h
          | cons colon afterColon =>
            rw [hsk] at h hl2
            simp only [List.length_cons] at hl2
            simp only at h
            by_cases hcol : colon = ':'
            swap
            · simp [hcol] at h
            subst hcol
            simp only [if_true] at h
            cases hv : parseValue g d afterColon with
            | none => rw [hv] at h; simp at h
            | some r1 =>
              obtain ⟨v1, afterValue⟩ := r1
              rw [hv] at h
              simp only at h
              have hl3 := progV _ _ _ _ hv
              have hl4 := skipSpace_length_le afterValue
              cases hsk2 : skipSpace afterValue with
              | nil => rw [hsk2] at h; simp at h
              | cons sep afterSep =>
                rw [hsk2] at h hl4
                simp only [List.length_cons] at hl4 hf
                simp only at h
                by_cases hs : sep = ','
                · subst hs
                  simp only [if_true] at h
                  have hl5 := progM _ _ _ _ _ h
                  have hl6 := skipSpace_length_le afterSep
                  obtain ⟨f1, rfl⟩ : ∃ f1, f = f1 + 1 := ⟨f - 1, by omega⟩
                  have hv1 := ihV _ _ _ _ hv f1 (by omega)
                  rw [parseMembers]
                  simp only [if_true, hu, hsk, hv1, hsk2]
                  exact ihM _ _ _ _ _ h f1 (by omega)
                · simp only [hs, if_false] at h
                  by_cases hs2 : sep = '\x7d'
                  swap
                  · simp [hs2] at h
                  subst hs2
                  simp only [if_true, Option.some.injEq, Prod.mk.injEq] at h
                  obtain ⟨rfl, rfl⟩ := h
                  obtain ⟨f1, rfl⟩ : ∃ f1, f = f1 + 1 := ⟨f - 1, by omega⟩
                  have hv1 := ihV _ _ _ _ hv f1 (by omega)
                  rw [parseMembers]
                  simp [hu, hsk, hv1, hsk2]
    · intro d acc cs v rest h f hf
      rw [parseElements] at h
      cases hv : parseValue g d cs with
      | none => rw [hv] at h; simp at h
      | some r1 =>
        obtain ⟨v1, afterValue⟩ := r1
        rw [hv] at h
        simp only at h
        have hl3 := progV _ _ _ _ hv
        have hl4 := skipSpace_length_le afterValue
        cases hsk2 : skipSpace afterValue with
        | nil => rw [hsk2] at h; simp at h
        | cons sep afterSep =>
          rw [hsk2] at h hl4
          simp only [List.length_cons] at hl4
          simp only at h
          by_cases hs : sep = ','
          · subst hs
            simp only [if_true] at h
            have hl5 := progE _ _ _ _ _ h
            obtain ⟨f1, rfl⟩ : ∃ f1, f = f1 + 1 := ⟨f - 1, by omega⟩
            have hv1 := ihV _ _ _ _ hv f1 (by omega)
            rw [parseElements]
            simp only [if_true, hv1, hsk2]
            exact ihE _ _ _ _ _ h f1 (by omega)
          · simp only [hs, if_false] at h
            by_cases hs2 : sep = ']'
            swap
            · simp [hs2] at h
            subst hs2
            simp only [if_true, Option.some.injEq, Prod.mk.injEq] at h
            obtain ⟨rfl, rfl⟩ := h
            obtain ⟨f1, rfl⟩ : ∃ f1, f = f1 + 1 := ⟨f - 1, by omega⟩
            have hv1 := ihV _ _ _ _ hv f1 (by omega)
            rw [parseElements]
            simp [hv1, hsk2]

/-- The bound on calls that `parseText` passes to `parseValue` is enough for every text:
any larger bound gives the same result. -/
theorem parseValue_fuel (g d : Nat) (cs : List Char) (hg : cs.length + 1 ≤ g) :
    parseValue g d cs = parseValue (cs.length + 1) d cs := by
  cases h1 : parseValue g d cs with
  | some r =>
    obtain ⟨v, rest⟩ := r
    exact ((parse_fuel g).1 d cs v rest h1 (cs.length + 1) (by omega)).symm
  | none =>
    cases h2 : parseValue (cs.length + 1) d cs with
    | none => rfl
    | some r =>
      obtain ⟨v, rest⟩ := r
      have := (parse_fuel (cs.length + 1)).1 d cs v rest h2 g (by omega)
      rw [h1] at this
      cases this

theorem parseJSON_fuel (g : Nat) (data : Bytes) (hg : (utf8Decode data).length + 1 ≤ g) :
    parseJSON data =
      match parseValue g 0 (utf8Decode data) with
      | none => none
      | some (v, rest) => if skipSpace rest = [] then some v else none := by
  rw [parseValue_fuel g 0 (utf8Decode data) hg]
  rfl

/-! ## Reading the ledger -/

theorem available_of_GetState {l : Ledger} {key : String} {v : Option Bytes}
    (h : (GetState l key).1 = .ok v) : l.unavailable = none ∧ l.state key = v := by
  unfold GetState at h
  cases hu : l.unavailable with
  | none => simp [hu] at h; exact ⟨rfl, h⟩
  | some err => simp [hu] at h

theorem available_of_GetHistoryForKey {l : Ledger} {key : String} {log : List KeyModification}
    (h : (GetHistoryForKey l key).1 = .ok log) : l.unavailable = none ∧ l.history key = log := by
  unfold GetHistoryForKey at h
  cases hu : l.unavailable with
  | none => simp [hu] at h; exact ⟨rfl, h⟩
  | some err => simp [hu] at h

theorem ProductExists_of_available {l : Ledger} (h : l.unavailable = none) (id : String) :
    ProductExists l id = (.ok (l.state id != none), l) := by
  simp [ProductExists, GetState, h]

theorem ReadProduct_snd (l : Ledger) (id : String) : (ReadProduct l id).2 = l := by
  unfold ReadProduct GetState
  cases l.unavailable with
  | some err => rfl
  | none =>
    cases l.state id with
    | none => rfl
    | some v => dsimp only; cases Unmarshal v Product.zero <;> rfl

theorem ReadProduct_absent {l : Ledger} (h : l.unavailable = none) {id : String}
    (hv : l.state id = none) :
    ReadProduct l id = (.error (GoError.Errorf ("the product " ++ id ++ " does not exist")), l) := by
  simp [ReadProduct, GetState, h, hv]

theorem ReadProduct_error {l : Ledger} (h : l.unavailable = none) {id : String} {v : Bytes}
    {err : JsonError} (hv : l.state id = some v) (hu : Unmarshal v Product.zero = .error err) :
    ReadProduct l id = (.error (GoError.Json err), l) := by
  simp [ReadProduct, GetState, h, hv, hu]

theorem ReadProduct_ok {l : Ledger} (h : l.unavailable = none) {id : String} {v : Bytes}
    {p : Product} (hv : l.state id = some v) (hu : Unmarshal v Product.zero = .ok p) :
    ReadProduct l id = (.ok p, l) := by
  simp [ReadProduct, GetState, h, hv, hu]

theorem PutState_of_available {l : Ledger} (h : l.unavailable = none) (ctx : TransactionContext)
    (key : String) (value : Bytes) : PutState ctx l key value = (none, written ctx l key value) := by
  simp [PutState, h, written]

theorem CreateProduct_absent {l : Ledger} (h : l.unavailable = none) {id : String}
    (hv : l.state id = none) (ctx : TransactionContext) (now : Int64)
    (productType farmer marketPriceHash certHash : GoString) :
    CreateProduct ctx now l id productType farmer marketPriceHash certHash =
      (none, written ctx l id (marshalText
        { ID := id, Type_ := productType, Farmer := farmer, Owner := farmer, Timestamp := now,
          MarketPriceHash := marketPriceHash, CertificationIPFSHash := certHash })) := by
  simp [CreateProduct, ProductExists_of_available h, hv, Marshal_eq, PutState_of_available h]

theorem CreateProduct_present {l : Ledger} (h : l.unavailable = none) {id : String}
    (hv : l.state id ≠ none) (ctx : TransactionContext) (now : Int64)
    (productType farmer marketPriceHash certHash : GoString) :
    CreateProduct ctx now l id productType farmer marketPriceHash certHash =
      (some (GoError.Errorf ("the product " ++ id ++ " already exists")), l) := by
  simp [CreateProduct, ProductExists_of_available h, hv]

theorem ShipProduct_ok {l : Ledger} (h : l.unavailable = none) {id : String} {v : Bytes}
    {p : Product} (hv : l.state id = some v) (hu : Unmarshal v Product.zero = .ok p)
    (ctx : TransactionContext) (now : Int64) (newOwner : GoString) :
    ShipProduct ctx now l id newOwner =
      (none, written ctx l id (marshalText
        { ID := p.ID, Type_ := p.Type_, Farmer := p.Farmer, Owner := newOwner, Timestamp := now,
          MarketPriceHash := p.MarketPriceHash,
          CertificationIPFSHash := p.CertificationIPFSHash })) := by
  simp [ShipProduct, ReadProduct_ok h hv hu, Marshal_eq, PutState_of_available h]

/-- C1. When a current value is stored under `id` (the ledger answers the lookup with a
value), `CreateProduct` on `id` fails with the "already exists" error and hands back the
ledger it was given: no current value and no history has changed. And on a reachable
ledger a `CreateProduct` on `id` made right after another `CreateProduct` on `id` fails in
that way and leaves the ledger as the first call left it. -/
theorem CreateProduct_already_exists (ctx ctx2 : TransactionContext) (now now2 : Int64)
    (l : Ledger) (id : String) (productType farmer marketPriceHash certHash : GoString)
    (productType2 farmer2 marketPriceHash2 certHash2 : GoString) :
    (∀ v : Bytes, (GetState l id).1 = .ok (some v) →
      CreateProduct ctx now l id productType farmer marketPriceHash certHash =
        (some (GoError.Errorf ("the product " ++ id ++ " already exists")), l)) ∧
    (l.unavailable = none →
      CreateProduct ctx2 now2
          (CreateProduct ctx now l id productType farmer marketPriceHash certHash).2
          id productType2 farmer2 marketPriceHash2 certHash2 =
        (some (GoError.Errorf ("the product " ++ id ++ " already exists")),
          (CreateProduct ctx now l id productType farmer marketPriceHash certHash).2)) := by
  constructor
  · intro v h
    obtain ⟨hu, hv⟩ := available_of_GetState h
    exact CreateProduct_present hu (by simp [hv]) ctx now _ _ _ _
  · intro hu
    cases hv : l.state id with
    | none =>
      rw [CreateProduct_absent hu hv]
      exact CreateProduct_present (by simpa [written] using hu) (by simp [written]) _ _ _ _ _ _
    | some v =>
      rw [CreateProduct_present hu (by simp [hv])]
      exact CreateProduct_present hu (by simp [hv]) _ _ _ _ _ _

theorem CreateProduct_already_exists_witness :
    CreateProduct tx2 t2 ledgerP1 "P1" "grain" "farmerB" "priceHash2" "certHash2" =
        (some (GoError.Errorf ("the product " ++ "P1" ++ " already exists")), ledgerP1) ∧
      CreateProduct tx2 t2
          (CreateProduct tx1 t1 Ledger.empty "P1" "grain" "farmerA" "priceHash1" "certHash1").2
          "P1" "grain" "farmerB" "priceHash2" "certHash2" =
        (some (GoError.Errorf ("the product " ++ "P1" ++ " already exists")),
          (CreateProduct tx1 t1 Ledger.empty "P1" "grain" "farmerA" "priceHash1" "certHash1").2) :=
  ⟨(CreateProduct_already_exists tx2 tx2 t2 t2 ledgerP1 "P1" "grain" "farmerB" "priceHash2"
      "certHash2" "" "" "" "").1 textP1 rfl,
   (CreateProduct_already_exists tx1 tx2 t1 t2 Ledger.empty "P1" "grain" "farmerA" "priceHash1"
      "certHash1" "grain" "farmerB" "priceHash2" "certHash2").2 rfl⟩

/-- C4. When no current value is stored under `id`, `ShipProduct` fails with the "does not
exist" error and hands back the ledger it was given: `id` still has no current value and no
key has gained a history entry. -/
theorem ShipProduct_not_found (ctx : TransactionContext) (now : Int64) (l : Ledger)
    (id : String) (newOwner : GoString) (h : (GetState l id).1 = .ok none) :
    ShipProduct ctx now l id newOwner =
        (some (GoError.Errorf ("the product " ++ id ++ " does not exist")), l) ∧
      (ShipProduct ctx now l id newOwner).2.state id = none ∧
      ∀ k : String, (ShipProduct ctx now l id newOwner).2.history k = l.history k := by
  obtain ⟨hu, hv⟩ := available_of_GetState h
  have e : ShipProduct ctx now l id newOwner =
      (some (GoError.Errorf ("the product " ++ id ++ " does not exist")), l) := by
    simp [ShipProduct, ReadProduct_absent hu hv]
  rw [e]
  exact ⟨rfl, hv, fun _ => rfl⟩

theorem ShipProduct_not_found_witness :
    ShipProduct tx2 t2 ledgerP1 "P2" "shipperB" =
        (some (GoError.Errorf ("the product " ++ "P2" ++ " does not exist")), ledgerP1) ∧
      (ShipProduct tx2 t2 ledgerP1 "P2" "shipperB").2.state "P2" = none ∧
      ∀ k : String, (ShipProduct tx2 t2 ledgerP1 "P2" "shipperB").2.history k =
        ledgerP1.history k :=
  ShipProduct_not_found tx2 t2 ledgerP1 "P2" "shipperB" rfl

/-! ## Replaying the history -/

/-- Whatever `historyLoop` returns on success is what it was given followed by one entry
for each log entry, in the order of the log. -/
theorem historyLoop_ok (id : String) : ∀ (log : List KeyModification)
    (records out : List HistoryQueryResult), historyLoop id log records = .ok out →
    ∃ rs, out = records ++ rs ∧ List.Forall₂ (Replays id) log rs := by
  intro log
  induction log with
  | nil =>
    intro records out h
    simp only [historyLoop, Except.ok.injEq] at h
    exact ⟨[], by simp [h], List.Forall₂.nil⟩
  | cons e rest ih =>
    intro records out h
    unfold historyLoop at h
    by_cases hlen : e.Value.length > 0
    · have hne : e.Value ≠ [] := by
        intro h0; rw [h0] at hlen; simp at hlen
      rw [if_pos hlen] at h
      cases hu : Unmarshal e.Value Product.zero with
      | error err => rw [hu] at h; simp at h
      | ok product =>
        rw [hu] at h
        obtain ⟨rs, e1, e2⟩ := ih _ _ h
        refine ⟨resultOf e product :: rs, by simp [e1, resultOf], List.Forall₂.cons ?_ e2⟩
        exact ⟨rfl, rfl, rfl, fun _ => hu, fun h0 => absurd h0 hne⟩
    · have h0 : e.Value = [] := by
        cases hv : e.Value with
        | nil => rfl
        | cons a t => rw [hv] at hlen; simp at hlen
      rw [if_neg hlen] at h
      obtain ⟨rs, e1, e2⟩ := ih _ _ h
      refine ⟨resultOf e { Product.zero with ID := id } :: rs, by simp [e1, resultOf],
        List.Forall₂.cons ?_ e2⟩
      exact ⟨rfl, rfl, rfl, fun hne => absurd h0 hne, fun _ => rfl⟩

/-- When every value in the log is empty or reads as a product, `historyLoop` succeeds. -/
theorem historyLoop_succeeds (id : String) : ∀ (log : List KeyModification)
    (records : List HistoryQueryResult),
    (∀ e ∈ log, e.Value = [] ∨ ∃ p, Unmarshal e.Value Product.zero = .ok p) →
    ∃ out, historyLoop id log records = .ok out := by
  intro log
  induction log with
  | nil => intro records _; exact ⟨records, rfl⟩
  | cons e rest ih =>
    intro records h
    have hrest : ∀ x ∈ rest, x.Value = [] ∨ ∃ p, Unmarshal x.Value Product.zero = .ok p :=
      fun x hx => h x (by simp [hx])
    unfold historyLoop
    rcases h e (by simp) with h0 | ⟨p, hp⟩
    · simp only [h0, List.length_nil, gt_iff_lt, lt_self_iff_false, if_false]
      exact ih _ hrest
    · by_cases hlen : e.Value.length > 0
      · simp only [hlen, if_true, hp]
        exact ih _ hrest
      · simp only [hlen, if_false]
        exact ih _ hrest

/-- When the values before `e` in the log are empty or read as products and the value of
`e` is not empty and does not read as a product, `historyLoop` fails with the error of
reading `e`. -/
theorem historyLoop_fails (id : String) (e : KeyModification) (post : List KeyModification)
    (err : JsonError) (hne : e.Value ≠ []) (herr : Unmarshal e.Value Product.zero = .error err) :
    ∀ (pre : List KeyModification) (records : List HistoryQueryResult),
    (∀ x ∈ pre, x.Value = [] ∨ ∃ p, Unmarshal x.Value Product.zero = .ok p) →
    historyLoop id (pre ++ e :: post) records = .error (GoError.Json err) := by
  have hlen : e.Value.length > 0 := List.length_pos.2 hne
  intro pre
  induction pre with
  | nil =>
    intro records _
    simp only [List.nil_append, historyLoop, hlen, if_true, herr]
  | cons x rest ih =>
    intro records h
    have hrest : ∀ y ∈ rest, y.Value = [] ∨ ∃ p, Unmarshal y.Value Product.zero = .ok p :=
      fun y hy => h y (by simp [hy])
    simp only [List.cons_append]
    unfold historyLoop
    rcases h x (by simp) with h0 | ⟨p, hp⟩
    · simp only [h0, List.length_nil, gt_iff_lt, lt_self_iff_false, if_false]
      exact ih _ hrest
    · by_cases hl : x.Value.length > 0
      · simp only [hl, if_true, hp]
        exact ih _ hrest
      · simp only [hl, if_false]
        exact ih _ hrest

/-- The first entry of a log whose value is not empty and does not read as a product. -/
theorem first_corrupt (log : List KeyModification)
    (h : ∃ e ∈ log, e.Value ≠ [] ∧ ∀ p, Unmarshal e.Value Product.zero ≠ .ok p) :
    ∃ pre e post err, log = pre ++ e :: post ∧
      (∀ x ∈ pre, x.Value = [] ∨ ∃ p, Unmarshal x.Value Product.zero = .ok p) ∧
      e.Value ≠ [] ∧ Unmarshal e.Value Product.zero = .error err := by
  induction log with
  | nil => obtain ⟨e, he, _⟩ := h; simp at he
  | cons x rest ih =>
    by_cases hx : x.Value = [] ∨ ∃ p, Unmarshal x.Value Product.zero = .ok p
    · have : ∃ e ∈ rest, e.Value ≠ [] ∧ ∀ p, Unmarshal e.Value Product.zero ≠ .ok p := by
        obtain ⟨e, he, hne, hbad⟩ := h
        rcases List.mem_cons.1 he with rfl | he
        · rcases hx with h0 | ⟨p, hp⟩
          · exact absurd h0 hne
          · exact absurd hp (hbad p)
        · exact ⟨e, he, hne, hbad⟩
      obtain ⟨pre, e, post, err, e1, e2, e3, e4⟩ := ih this
      refine ⟨x :: pre, e, post, err, by simp [e1], ?_, e3, e4⟩
      intro y hy
      rcases List.mem_cons.1 hy with rfl | hy
      · exact hx
      · exact e2 y hy
    · push_neg at hx
      cases hu : Unmarshal x.Value Product.zero with
      | ok p => exact absurd hu (hx.2 p)
      | error err => exact ⟨[], x, rest, err, rfl, by simp, hx.1, hu⟩

theorem GetProductHistory_eq {l : Ledger} {id : String} {log : List KeyModification}
    (h : (GetHistoryForKey l id).1 = .ok log) :
    GetProductHistory l id = (historyLoop id log [], l) := by
  obtain ⟨hu, hl⟩ := available_of_GetHistoryForKey h
  simp [GetProductHistory, GetHistoryForKey, hu, hl]

/-! ## A product from creation through its transfers -/

theorem TransferCall_run_ok {l : Ledger} (h : l.unavailable = none) {id : String} {p : Product}
    (hv : l.state id = some (marshalText p)) (t : TransferCall) :
    t.run l id =
      (none, written t.ctx l id (marshalText
        { ID := p.coerced.ID, Type_ := p.coerced.Type_, Farmer := p.coerced.Farmer,
          Owner := t.newOwner, Timestamp := t.now,
          MarketPriceHash := p.coerced.MarketPriceHash,
          CertificationIPFSHash := p.coerced.CertificationIPFSHash })) := by
  have hu := Unmarshal_Marshal p Product.zero _ (Marshal_eq p)
  unfold TransferCall.run
  cases t.kind with
  | Ship => exact ShipProduct_ok h hv hu _ _ _
  | Receive => exact ShipProduct_ok h hv hu _ _ _

theorem runTransfers_spec (id : String) : ∀ (ts : List TransferCall) (l : Ledger) (p : Product),
    l.unavailable = none → l.state id = some (marshalText p) →
    (runTransfers id l ts).1 = ts.map (fun _ => none) ∧
      (runTransfers id l ts).2.unavailable = none ∧
      ∃ (q : Product) (ps : List Product) (es : List KeyModification),
        (runTransfers id l ts).2.state id = some (marshalText q) ∧
        q.Owner = (ts.map fun t => t.newOwner).getLastD p.Owner ∧
        (runTransfers id l ts).2.history id = l.history id ++ es ∧
        es.map (fun e => e.Value) = ps.map marshalText ∧
        ps.map (fun x => x.Owner) = ts.map (fun t => t.newOwner) ∧
        ∀ e ∈ es, e.IsDelete = false := by
  intro ts
  induction ts with
  | nil =>
    intro l p hu hv
    exact ⟨rfl, hu, p, [], [], hv, rfl, by simp [runTransfers], rfl, rfl, by simp⟩
  | cons t ts ih =>
    intro l p hu hv
    have hrun := TransferCall_run_ok hu hv t
    obtain ⟨p1, hp1⟩ : ∃ p1 : Product, p1 =
        { ID := p.coerced.ID, Type_ := p.coerced.Type_, Farmer := p.coerced.Farmer,
          Owner := t.newOwner, Timestamp := t.now,
          MarketPriceHash := p.coerced.MarketPriceHash,
          CertificationIPFSHash := p.coerced.CertificationIPFSHash } := ⟨_, rfl⟩
    rw [← hp1] at hrun
    have hown : p1.Owner = t.newOwner := by rw [hp1]
    simp only [runTransfers, hrun, List.map_cons]
    obtain ⟨h1, h2, q, ps, es, h3, h4, h5, h6, h7, h8⟩ :=
      ih (written t.ctx l id (marshalText p1)) p1 (by simpa [written] using hu)
        (by simp [written])
    refine ⟨by rw [h1], h2, q, p1 :: ps,
      { TxId := t.ctx.TxID, Value := marshalText p1, Timestamp := t.ctx.TxTimestamp,
        IsDelete := false } :: es, h3, ?_, ?_, ?_, ?_, ?_⟩
    · rw [h4, hown, List.getLastD_cons]
    · rw [h5]
      simp only [written, if_true, List.append_assoc, List.singleton_append]
    · simp only [List.map_cons, h6]
    · simp only [List.map_cons, h7, hown]
    · intro e he
      rcases List.mem_cons.1 he with rfl | he
      · rfl
      · exact h8 e he

theorem historyLoop_marshalText (id : String) : ∀ (es : List KeyModification) (ps : List Product)
    (records : List HistoryQueryResult), es.map (fun e => e.Value) = ps.map marshalText →
    ∃ rs, historyLoop id es records = .ok (records ++ rs) ∧
      rs.map (fun r => r.Record) = ps.map Product.coerced ∧
      rs.map (fun r => r.IsDelete) = es.map (fun e => e.IsDelete) := by
  intro es
  induction es with
  | nil =>
    intro ps records h
    cases ps with
    | nil => exact ⟨[], by simp [historyLoop], rfl, rfl⟩
    | cons p ps => simp at h
  | cons e es ih =>
    intro ps records h
    cases ps with
    | nil => simp at h
    | cons p ps =>
      simp only [List.map_cons, List.cons.injEq] at h
      obtain ⟨hv, hrest⟩ := h
      have hlen : e.Value.length > 0 := by
        rw [hv]; exact List.length_pos.2 (marshalText_ne_nil p)
      have hu : Unmarshal e.Value Product.zero = .ok p.coerced := by
        rw [hv]; exact Unmarshal_Marshal p _ _ (Marshal_eq p)
      obtain ⟨rs, h1, h2, h3⟩ := ih ps (records ++ [resultOf e p.coerced]) hrest
      refine ⟨resultOf e p.coerced :: rs, ?_, by simp [resultOf, h2], by simp [resultOf, h3]⟩
      unfold historyLoop
      simp only [hlen, if_true, hu]
      simpa only [resultOf, List.append_assoc, List.singleton_append] using h1

/-- C6. For an identifier that was never created (the ledger answers the lookup with
"absent" and its commit log for the key is empty), `ProductExists` returns false without
error and `GetProductHistory` returns the empty sequence without error. -/
theorem never_created (l : Ledger) (id : String) (h : (GetState l id).1 = .ok none)
    (hlog : (GetHistoryForKey l id).1 = .ok []) :
    (ProductExists l id).1 = .ok false ∧ (GetProductHistory l id).1 = .ok [] := by
  obtain ⟨hu, hv⟩ := available_of_GetState h
  constructor
  · simp [ProductExists_of_available hu, hv]
  · rw [GetProductHistory_eq hlog]; rfl

theorem never_created_witness :
    (ProductExists ledgerP1 "P2").1 = .ok false ∧ (GetProductHistory ledgerP1 "P2").1 = .ok [] :=
  never_created ledgerP1 "P2" rfl rfl

/-- C7. When the commit log of `id` is `log` and every value in it is empty or reads as a
record, `GetProductHistory` succeeds and returns as many entries as the log has, in the
order of the log: each carries the transaction identifier, the commit time and the
deletion flag of its log entry, and its record is what the entry's value reads as when
that value is not empty. -/
theorem GetProductHistory_replays_log (l : Ledger) (id : String) (log : List KeyModification)
    (h : (GetHistoryForKey l id).1 = .ok log)
    (hall : ∀ e ∈ log, e.Value = [] ∨ ∃ p, Unmarshal e.Value Product.zero = .ok p) :
    ∃ rs, (GetProductHistory l id).1 = .ok rs ∧ rs.length = log.length ∧
      List.Forall₂
        (fun e r => r.TxId = e.TxId ∧ r.Timestamp = e.Timestamp.AsTime ∧
          r.IsDelete = e.IsDelete ∧
          (e.Value ≠ [] → Unmarshal e.Value Product.zero = .ok r.Record))
        log rs := by
  obtain ⟨out, hout⟩ := historyLoop_succeeds id log [] hall
  obtain ⟨rs, e1, e2⟩ := historyLoop_ok id log [] out hout
  rw [List.nil_append] at e1
  subst e1
  refine ⟨out, by rw [GetProductHistory_eq h, hout], e2.length_eq.symm, ?_⟩
  exact e2.imp fun e r hr => ⟨hr.1, hr.2.1, hr.2.2.1, hr.2.2.2.1⟩

set_option maxRecDepth 100000 in
theorem GetProductHistory_replays_log_witness :
    ∃ rs, (GetProductHistory ledgerDeleted "P1").1 = .ok rs ∧
      rs.length = (ledgerDeleted.history "P1").length ∧
      List.Forall₂
        (fun e r => r.TxId = e.TxId ∧ r.Timestamp = e.Timestamp.AsTime ∧
          r.IsDelete = e.IsDelete ∧
          (e.Value ≠ [] → Unmarshal e.Value Product.zero = .ok r.Record))
        (ledgerDeleted.history "P1") rs :=
  GetProductHistory_replays_log ledgerDeleted "P1" (ledgerDeleted.history "P1") rfl
    (by
      intro e he
      have he2 : e ∈ [entryCreated, entryTombstone] := he
      simp only [List.mem_cons, List.mem_singleton, List.not_mem_nil, or_false] at he2
      rcases he2 with rfl | rfl
      · exact Or.inr ⟨productP1, rfl⟩
      · exact Or.inl rfl)

/-- C8. `GetProductHistory` is fail-fast: when the commit log of `id` holds an entry whose
value is not empty and does not read as a record, the call returns an error, the one of
reading the first such entry of the log, and no entries. -/
theorem GetProductHistory_fail_fast (l : Ledger) (id : String) (log : List KeyModification)
    (h : (GetHistoryForKey l id).1 = .ok log)
    (hbad : ∃ e ∈ log, e.Value ≠ [] ∧ ∀ p, Unmarshal e.Value Product.zero ≠ .ok p) :
    ∃ pre e post err, log = pre ++ e :: post ∧
      (∀ x ∈ pre, x.Value = [] ∨ ∃ p, Unmarshal x.Value Product.zero = .ok p) ∧
      e.Value ≠ [] ∧ Unmarshal e.Value Product.zero = .error err ∧
      (GetProductHistory l id).1 = .error (GoError.Json err) := by
  obtain ⟨pre, e, post, err, e1, e2, e3, e4⟩ := first_corrupt log hbad
  refine ⟨pre, e, post, err, e1, e2, e3, e4, ?_⟩
  rw [GetProductHistory_eq h, e1]
  exact historyLoop_fails id e post err e3 e4 pre [] e2

set_option maxRecDepth 100000 in
theorem GetProductHistory_fail_fast_witness :
    ∃ pre e post err, ledgerCorrupt.history "P1" = pre ++ e :: post ∧
      (∀ x ∈ pre, x.Value = [] ∨ ∃ p, Unmarshal x.Value Product.zero = .ok p) ∧
      e.Value ≠ [] ∧ Unmarshal e.Value Product.zero = .error err ∧
      (GetProductHistory ledgerCorrupt "P1").1 = .error (GoError.Json err) :=
  GetProductHistory_fail_fast ledgerCorrupt "P1" (ledgerCorrupt.history "P1") rfl
    ⟨entryGarbage, List.mem_cons_of_mem _ (List.mem_singleton.2 rfl), by decide,
     fun p hp => by
      have herr : Unmarshal entryGarbage.Value Product.zero = .error JsonError.SyntaxError := rfl
      rw [herr] at hp
      cases hp⟩

/-- C9. When the commit log of `id` is `log`: `GetProductHistory` returns entries whenever
every value in the log is empty or reads as a record; and in whatever it returns, for
every tombstone of the log, that is every entry whose deletion flag is set and which
carries no value, the corresponding entry has the flag set, and its record is the
placeholder: `id` as identifier and every other field at its default value. -/
theorem GetProductHistory_placeholder (l : Ledger) (id : String) (log : List KeyModification)
    (h : (GetHistoryForKey l id).1 = .ok log) :
    ((∀ e ∈ log, e.Value = [] ∨ ∃ p, Unmarshal e.Value Product.zero = .ok p) →
      ∃ rs, (GetProductHistory l id).1 = .ok rs) ∧
    ∀ rs, (GetProductHistory l id).1 = .ok rs →
      List.Forall₂
        (fun e r => e.IsDelete = true → e.Value = [] →
          r.IsDelete = true ∧
            r.Record = { ID := id, Type_ := [], Farmer := [], Owner := [],
                         Timestamp := ⟨0, by decide⟩, MarketPriceHash := [],
                         CertificationIPFSHash := [] })
        log rs := by
  rw [GetProductHistory_eq h]
  refine ⟨fun hall => historyLoop_succeeds id log [] hall, fun rs hrs => ?_⟩
  obtain ⟨rs1, e1, e2⟩ := historyLoop_ok id log [] rs hrs
  rw [List.nil_append] at e1
  subst e1
  exact e2.imp fun e r hr hd h0 => ⟨by rw [hr.2.2.1, hd], hr.2.2.2.2 h0⟩

set_option maxRecDepth 100000 in
theorem GetProductHistory_placeholder_witness :
    (GetHistoryForKey ledgerDeleted "P1").1 = .ok [entryCreated, entryTombstone] ∧
      (entryTombstone.IsDelete = true ∧ entryTombstone.Value = []) ∧
      (GetProductHistory ledgerDeleted "P1").1 =
        .ok [{ Record := productP1, TxId := "tx1",
               Timestamp := { sec := 1700000000, nsec := 0 }, IsDelete := false },
             { Record := { Product.zero with ID := "P1" }, TxId := "tx2",
               Timestamp := { sec := 1700000060, nsec := 0 }, IsDelete := true }] ∧
      List.Forall₂
        (fun (e : KeyModification) (r : HistoryQueryResult) =>
          e.IsDelete = true → e.Value = [] →
            r.IsDelete = true ∧
              r.Record = { ID := "P1", Type_ := [], Farmer := [], Owner := [],
                           Timestamp := ⟨0, by decide⟩, MarketPriceHash := [],
                           CertificationIPFSHash := [] })
        [entryCreated, entryTombstone]
        [{ Record := productP1, TxId := "tx1", Timestamp := { sec := 1700000000, nsec := 0 },
           IsDelete := false },
         { Record := { Product.zero with ID := "P1" }, TxId := "tx2",
           Timestamp := { sec := 1700000060, nsec := 0 }, IsDelete := true }] :=
  ⟨rfl, ⟨rfl, rfl⟩, rfl,
    (GetProductHistory_placeholder ledgerDeleted "P1" [entryCreated, entryTombstone] rfl).2
      _ rfl⟩

/-! ## Reading a product -/

/-- C10. `ReadProduct` never changes the ledger, and on a reachable ledger it returns
exactly one of three results: the "does not exist" error, if and only if no current value
is stored under `id`; the error of reading the stored value, if and only if a value is
stored under `id` and reading it fails with that error; the record the stored value reads
as, if and only if a value is stored and reads as that record. -/
theorem ReadProduct_outcomes (l : Ledger) (id : String) :
    (ReadProduct l id).2 = l ∧
      (l.unavailable = none →
        ((ReadProduct l id).1 =
            .error (GoError.Errorf ("the product " ++ id ++ " does not exist")) ↔
          l.state id = none) ∧
        (∀ err, (ReadProduct l id).1 = .error (GoError.Json err) ↔
          ∃ v, l.state id = some v ∧ Unmarshal v Product.zero = .error err) ∧
        (∀ p, (ReadProduct l id).1 = .ok p ↔
          ∃ v, l.state id = some v ∧ Unmarshal v Product.zero = .ok p) ∧
        ((ReadProduct l id).1 =
            .error (GoError.Errorf ("the product " ++ id ++ " does not exist")) ∨
          (∃ err, (ReadProduct l id).1 = .error (GoError.Json err)) ∨
          ∃ p, (ReadProduct l id).1 = .ok p)) := by
  refine ⟨ReadProduct_snd l id, fun hu => ?_⟩
  cases hv : l.state id with
  | none =>
    rw [ReadProduct_absent hu hv]
    simp
  | some v =>
    cases hr : Unmarshal v Product.zero with
    | error err =>
      rw [ReadProduct_error hu hv hr]
      simp [hr, eq_comm]
    | ok p =>
      rw [ReadProduct_ok hu hv hr]
      simp [hr, eq_comm]

set_option maxRecDepth 100000 in
theorem ReadProduct_outcomes_witness :
    (ReadProduct ledgerP1 "P1").2 = ledgerP1 ∧
      (ReadProduct ledgerP1 "P1").1 = .ok productP1 ∧
      (ReadProduct ledgerP1 "P2").1 =
        .error (GoError.Errorf ("the product " ++ "P2" ++ " does not exist")) ∧
      (ReadProduct ledgerCorrupt "P1").1 = .error (GoError.Json JsonError.SyntaxError) :=
  ⟨(ReadProduct_outcomes ledgerP1 "P1").1,
   (((ReadProduct_outcomes ledgerP1 "P1").2 rfl).2.2.1 productP1).2 ⟨textP1, rfl, rfl⟩,
   ((ReadProduct_outcomes ledgerP1 "P2").2 rfl).1.2 rfl,
   (((ReadProduct_outcomes ledgerCorrupt "P1").2 rfl).2.1 JsonError.SyntaxError).2
     ⟨textGarbage, rfl, rfl⟩⟩

/-! ## Existence -/

/-- C11. `ProductExists` never changes the ledger, and on a reachable ledger it returns
true if and only if a current value is stored under `id`, whatever that value reads as,
and false exactly when `ReadProduct` fails with the "does not exist" error. -/
theorem ProductExists_iff (l : Ledger) (id : String) :
    (ProductExists l id).2 = l ∧
      (l.unavailable = none →
        ((ProductExists l id).1 = .ok true ↔ ∃ v, l.state id = some v) ∧
        ((ProductExists l id).1 = .ok false ↔
          (ReadProduct l id).1 =
            .error (GoError.Errorf ("the product " ++ id ++ " does not exist"))) ∧
        ((ProductExists l id).1 = .ok true ∨ (ProductExists l id).1 = .ok false)) := by
  constructor
  · unfold ProductExists GetState
    cases l.unavailable <;> rfl
  · intro hu
    rw [ProductExists_of_available hu]
    cases hv : l.state id with
    | none => simp [ReadProduct_absent hu hv]
    | some v =>
      cases hr : Unmarshal v Product.zero with
      | error err => simp [ReadProduct_error hu hv hr]
      | ok p => simp [ReadProduct_ok hu hv hr]

theorem ProductExists_iff_witness :
    (ProductExists ledgerCorrupt "P1").2 = ledgerCorrupt ∧
      (ProductExists ledgerCorrupt "P1").1 = .ok true ∧
      (ReadProduct ledgerCorrupt "P1").1 = .error (GoError.Json JsonError.SyntaxError) ∧
      (ProductExists ledgerCorrupt "P2").1 = .ok false :=
  ⟨(ProductExists_iff ledgerCorrupt "P1").1,
   (((ProductExists_iff ledgerCorrupt "P1").2 rfl).1).2 ⟨textGarbage, rfl⟩,
   rfl,
   (((ProductExists_iff ledgerCorrupt "P2").2 rfl).2.1).2 rfl⟩

/-- C12. `ReceiveProduct` is `ShipProduct`: on every ledger, with every transaction, clock
reading, identifier and new owner, the two return the same `error` and leave the same
ledger. -/
theorem ReceiveProduct_eq_ShipProduct (ctx : TransactionContext) (now : Int64) (l : Ledger)
    (id : String) (newOwner : GoString) :
    ReceiveProduct ctx now l id newOwner = ShipProduct ctx now l id newOwner := by
  rfl

/-! ## Serialization -/

/-- C13, amended. Round trip: for every product whose strings are valid UTF-8, the empty
string included, and every timestamp, `Marshal` succeeds, and `Unmarshal` of the bytes it
writes into a zero product (or into any other) succeeds and gives the product back, equal
in every field. -/
theorem Marshal_Unmarshal_round_trip (p : Product)
    (hvalid : ValidString p.ID = true ∧ ValidString p.Type_ = true ∧
      ValidString p.Farmer = true ∧ ValidString p.Owner = true ∧
      ValidString p.MarketPriceHash = true ∧ ValidString p.CertificationIPFSHash = true) :
    ∃ text, Marshal p = .ok text ∧ Unmarshal text Product.zero = .ok p ∧
      ∀ q, Unmarshal text q = .ok p := by
  obtain ⟨v1, v2, v3, v4, v5, v6⟩ := hvalid
  have hp : p.coerced = p := by
    simp only [Product.coerced, coerceUTF8_of_valid _ v1, coerceUTF8_of_valid _ v2,
      coerceUTF8_of_valid _ v3, coerceUTF8_of_valid _ v4, coerceUTF8_of_valid _ v5,
      coerceUTF8_of_valid _ v6]
  refine ⟨marshalText p, Marshal_eq p, ?_, fun q => ?_⟩
  · rw [Unmarshal_Marshal p _ _ (Marshal_eq p), hp]
  · rw [Unmarshal_Marshal p q _ (Marshal_eq p), hp]

set_option maxRecDepth 100000 in
theorem Marshal_Unmarshal_round_trip_witness :
    (∃ text, Marshal productP1 = .ok text ∧ Unmarshal text Product.zero = .ok productP1 ∧
      ∀ q, Unmarshal text q = .ok productP1) ∧
    ∃ text, Marshal productNoRefs = .ok text ∧ Unmarshal text Product.zero = .ok productNoRefs ∧
      ∀ q, Unmarshal text q = .ok productNoRefs :=
  ⟨Marshal_Unmarshal_round_trip productP1
      ⟨by decide, by decide, by decide, by decide, by decide, by decide⟩,
   Marshal_Unmarshal_round_trip productNoRefs
      ⟨by decide, by decide, by decide, by decide, by decide, by decide⟩⟩

set_option maxRecDepth 100000 in
/-- C13 as stated fails: a Go string need not be valid UTF-8. For `productInvalid`, whose
owner is the single byte `0xFF`, `Marshal` writes the escape of U+FFFD in place of the
byte, and `Unmarshal` of the bytes written gives a product whose owner is the three bytes
of U+FFFD: not the product that was written. It is so for each string field: of
`productAllInvalid`, whose six strings are that byte, none is read back as it was. -/
theorem invalid_owner_round_trip_counterexample :
    (productInvalid.Owner = invalidHolder ∧
      Marshal productInvalid = .ok textInvalid ∧
      Unmarshal textInvalid Product.zero =
        .ok { ID := "P1", Type_ := "grain", Farmer := "farmerA", Owner := replacementHolder,
              Timestamp := t1, MarketPriceHash := "priceHash1",
              CertificationIPFSHash := "certHash1" } ∧
      ({ ID := "P1", Type_ := "grain", Farmer := "farmerA", Owner := replacementHolder,
         Timestamp := t1, MarketPriceHash := "priceHash1",
         CertificationIPFSHash := "certHash1" } : Product) ≠ productInvalid) ∧
    (Marshal productAllInvalid = .ok textAllInvalid ∧
      Unmarshal textAllInvalid Product.zero =
        .ok { ID := replacementHolder, Type_ := replacementHolder,
              Farmer := replacementHolder, Owner := replacementHolder, Timestamp := t1,
              MarketPriceHash := replacementHolder,
              CertificationIPFSHash := replacementHolder }) ∧
    replacementHolder ≠ invalidHolder :=
  ⟨⟨rfl, rfl, rfl, by decide⟩, ⟨rfl, rfl⟩, by decide⟩

theorem decodeField_get {f : Field} {v : JVal} {p q : Product} (h : decodeField f v p = some q)
    (g : Field) (hg : g ≠ f) : q.get g = p.get g := by
  cases v with
  | null => simp only [decodeField, Option.some.injEq] at h; rw [← h]
  | str s =>
    cases f <;>
      first
        | (simp [decodeField] at h; done)
        | (simp only [decodeField, Option.some.injEq] at h
           subst h
           cases g <;> first | rfl | exact absurd rfl hg)
  | num lit =>
    cases f <;>
      first
        | (simp [decodeField] at h; done)
        | (simp only [decodeField] at h
           cases hl : parseInt64 lit with
           | none => rw [hl] at h; cases h
           | some n =>
             rw [hl] at h
             simp only [Option.map_some', Option.some.injEq] at h
             subst h
             cases g <;> first | rfl | exact absurd rfl hg)
  | bool b => simp [decodeField] at h
  | arr xs => simp [decodeField] at h
  | obj kvs => simp [decodeField] at h

theorem decodeField_any {f : Field} {v : JVal} {q : Product}
    (h : decodeField f v Product.zero = some q) (p : Product) :
    ∃ q1, decodeField f v p = some q1 := by
  cases v with
  | null => exact ⟨p, rfl⟩
  | str s =>
    cases f <;>
      first
        | (simp [decodeField] at h; done)
        | exact ⟨_, rfl⟩
  | num lit =>
    cases f <;>
      first
        | (simp [decodeField] at h; done)
        | (simp only [decodeField] at h ⊢
           cases hl : parseInt64 lit with
           | none => rw [hl] at h; cases h
           | some n => exact ⟨_, rfl⟩)
  | bool b => simp [decodeField] at h
  | arr xs => simp [decodeField] at h
  | obj kvs => simp [decodeField] at h

/-- Decoding members whose values fit the fields they name saves no error, and leaves
every field that no member names as it was. -/
theorem decodeMembers_fit : ∀ (kvs : List (List Char × JVal)) (p : Product),
    (∀ kv ∈ kvs, ∀ f, lookupField kv.1 = some f →
      ∃ q, decodeField f kv.2 Product.zero = some q) →
    (kvs.foldl decodeMember (p, false)).2 = false ∧
      ∀ f, (∀ kv ∈ kvs, lookupField kv.1 ≠ some f) →
        (kvs.foldl decodeMember (p, false)).1.get f = p.get f := by
  intro kvs
  induction kvs with
  | nil => intro p _; exact ⟨rfl, fun _ _ => rfl⟩
  | cons kv kvs ih =>
    intro p h
    have hrest : ∀ x ∈ kvs, ∀ f, lookupField x.1 = some f →
        ∃ q, decodeField f x.2 Product.zero = some q :=
      fun x hx => h x (List.mem_cons_of_mem _ hx)
    simp only [List.foldl_cons]
    cases hl : lookupField kv.1 with
    | none =>
      have e : decodeMember (p, false) kv = (p, false) := by simp [decodeMember, hl]
      rw [e]
      obtain ⟨i1, i2⟩ := ih p hrest
      exact ⟨i1, fun f hf => i2 f fun x hx => hf x (List.mem_cons_of_mem _ hx)⟩
    | some f0 =>
      obtain ⟨q0, hq0⟩ := h kv (List.mem_cons_self _ _) f0 hl
      obtain ⟨q1, hq1⟩ := decodeField_any hq0 p
      have e : decodeMember (p, false) kv = (q1, false) := by simp [decodeMember, hl, hq1]
      rw [e]
      obtain ⟨i1, i2⟩ := ih q1 hrest
      refine ⟨i1, fun f hf => ?_⟩
      rw [i2 f fun x hx => hf x (List.mem_cons_of_mem _ hx)]
      apply decodeField_get hq1
      intro hff
      exact hf kv (List.mem_cons_self _ _) (by rw [hl, hff])

/-- C14, amended. Decoding on read is lenient: when the value stored under `id` is a
well-formed JSON object and every member that names a field of the record has a value that
fits the field, `ReadProduct` succeeds, whichever fields are absent, and every field that
no member names comes back with its default value (empty string, zero). -/
theorem ReadProduct_missing_fields (l : Ledger) (id : String) (v : Bytes)
    (kvs : List (List Char × JVal)) (h : (GetState l id).1 = .ok (some v))
    (hobj : parseJSON v = some (JVal.obj kvs))
    (hfit : ∀ kv ∈ kvs, ∀ f, lookupField kv.1 = some f →
      ∃ q, decodeField f kv.2 Product.zero = some q) :
    ∃ p, (ReadProduct l id).1 = .ok p ∧
      ∀ f, (∀ kv ∈ kvs, lookupField kv.1 ≠ some f) → p.get f = Product.zero.get f := by
  obtain ⟨hu, hv⟩ := available_of_GetState h
  obtain ⟨i1, i2⟩ := decodeMembers_fit kvs Product.zero hfit
  have hr : Unmarshal v Product.zero = .ok (kvs.foldl decodeMember (Product.zero, false)).1 := by
    simp [Unmarshal, hobj, i1]
  exact ⟨_, by rw [ReadProduct_ok hu hv hr], i2⟩

theorem ReadProduct_missing_fields_witness :
    ∃ p, (ReadProduct ledgerPartial "P1").1 = .ok p ∧
      ∀ f, (∀ kv ∈ [("ID".data, JVal.str "P1".data)], lookupField kv.1 ≠ some f) →
        p.get f = Product.zero.get f :=
  ReadProduct_missing_fields ledgerPartial "P1" textPartial
    [("ID".data, JVal.str "P1".data)] rfl rfl
    (by
      intro kv hkv f hf
      simp only [List.mem_singleton] at hkv
      subst hkv
      have : f = Field.ID := by
        have e : lookupField "ID".data = some Field.ID := by decide
        rw [e] at hf
        exact (Option.some.inj hf).symm
      subst this
      exact ⟨_, rfl⟩)

set_option maxRecDepth 100000 in
/-- C14 as stated fails: the value stored under `P1` in `ledgerPartial` is the well-formed
object with the single member `ID`; the six other fields are absent, and `ReadProduct`
returns without error the record in which they are empty and zero. -/
theorem missing_field_counterexample :
    ledgerPartial.state "P1" = some textPartial ∧
      parseJSON textPartial = some (JVal.obj [("ID".data, JVal.str "P1".data)]) ∧
      (ReadProduct ledgerPartial "P1").1 =
        .ok { ID := "P1", Type_ := "", Farmer := "", Owner := "", Timestamp := ⟨0, by decide⟩,
              MarketPriceHash := "", CertificationIPFSHash := "" } :=
  ⟨rfl, rfl, rfl⟩

/-! ## What the chaincode keeps true of its ledger -/

theorem ShipProduct_absent {l : Ledger} (h : l.unavailable = none) {id : String}
    (hv : l.state id = none) (ctx : TransactionContext) (now : Int64) (newOwner : GoString) :
    ShipProduct ctx now l id newOwner =
      (some (GoError.Errorf ("the product " ++ id ++ " does not exist")), l) := by
  simp [ShipProduct, ReadProduct_absent h hv]

theorem Stored_mono {S T : List GoString} {k : String} {v : Bytes} (h : Stored S k v)
    (hST : ∀ x ∈ S, x ∈ T) : Stored T k v := by
  obtain ⟨p, h1, h2, h3⟩ := h
  exact ⟨p, h1, h2, hST _ h3⟩

theorem Maintained_mono {S T : List GoString} {l : Ledger} (h : Maintained S l)
    (hST : ∀ x ∈ S, x ∈ T) : Maintained T l :=
  ⟨h.1, fun k v hv => Stored_mono (h.2.1 k v hv) hST,
    fun k e he => Stored_mono (h.2.2 k e he) hST⟩

theorem Maintained_written {S T : List GoString} {l : Ledger} (h : Maintained S l)
    (hST : ∀ x ∈ S, x ∈ T) (ctx : TransactionContext) (id : String) (text : Bytes)
    (ht : Stored T id text) : Maintained T (written ctx l id text) := by
  refine ⟨h.1, ?_, ?_⟩
  · intro k v hv
    simp only [written] at hv
    by_cases hk : k = id
    · subst hk
      simp only [if_true, Option.some.injEq] at hv
      rw [← hv]; exact ht
    · simp only [hk, if_false] at hv
      exact Stored_mono (h.2.1 k v hv) hST
  · intro k e he
    simp only [written] at he
    by_cases hk : k = id
    · subst hk
      simp only [if_true, List.mem_append, List.mem_singleton] at he
      rcases he with he | rfl
      · exact Stored_mono (h.2.2 k e he) hST
      · exact ht
    · simp only [hk, if_false] at he
      exact Stored_mono (h.2.2 k e he) hST

theorem Maintained_transfer {S : List GoString} {l : Ledger} (h : Maintained S l)
    (ctx : TransactionContext) (now : Int64) (id : String) (newOwner : GoString) :
    Maintained (S ++ [newOwner]) (ShipProduct ctx now l id newOwner).2 := by
  have hST : ∀ x ∈ S, x ∈ S ++ [newOwner] := fun x hx => List.mem_append_left _ hx
  cases hv : l.state id with
  | none =>
    rw [ShipProduct_absent h.1 hv]
    exact Maintained_mono h hST
  | some v =>
    obtain ⟨p, h1, h2, -⟩ := h.2.1 id v hv
    have hu : Unmarshal v Product.zero = .ok p.coerced := by
      rw [h1]; exact Unmarshal_Marshal p _ _ (Marshal_eq p)
    rw [ShipProduct_ok h.1 hv hu]
    refine Maintained_written h hST ctx id _ ⟨_, rfl, ?_, by simp⟩
    show coerceUTF8 p.ID = (id : GoString)
    rw [h2, coerceUTF8_text]

theorem Maintained_step {S : List GoString} {l : Ledger} (h : Maintained S l) (c : Call) :
    Maintained (S ++ [c.holder]) (c.run l).2 := by
  cases c with
  | Create ctx now id productType farmer marketPriceHash certHash =>
    have hST : ∀ x ∈ S, x ∈ S ++ [farmer] := fun x hx => List.mem_append_left _ hx
    simp only [Call.run, Call.holder]
    cases hv : l.state id with
    | none =>
      rw [CreateProduct_absent h.1 hv]
      exact Maintained_written h hST ctx id _ ⟨_, rfl, rfl, by simp⟩
    | some v =>
      rw [CreateProduct_present h.1 (by simp [hv])]
      exact Maintained_mono h hST
  | Ship ctx now id newOwner => exact Maintained_transfer h ctx now id newOwner
  | Receive ctx now id newOwner => exact Maintained_transfer h ctx now id newOwner

theorem Maintained_runCalls : ∀ (calls : List Call) (S : List GoString) (l : Ledger),
    Maintained S l → Maintained (S ++ calls.map Call.holder) (runCalls l calls) := by
  intro calls
  induction calls with
  | nil => intro S l h; simpa [runCalls] using h
  | cons c cs ih =>
    intro S l h
    have := ih (S ++ [c.holder]) (c.run l).2 (Maintained_step h c)
    simpa [runCalls, List.append_assoc] using this

theorem Maintained_empty : Maintained [] Ledger.empty :=
  ⟨rfl, fun k v hv => by simp [Ledger.empty] at hv, fun k e he => by simp [Ledger.empty] at he⟩

/-- Every ledger reached from the empty one is maintained, with the holders the calls
named. -/
theorem Maintained_reached (calls : List Call) :
    Maintained (calls.map Call.holder) (runCalls Ledger.empty calls) := by
  simpa using Maintained_runCalls calls [] Ledger.empty Maintained_empty

theorem Stored_reads {S : List GoString} {k : String} {v : Bytes} (h : Stored S k v) :
    ∃ p, Unmarshal v Product.zero = .ok p ∧ p.ID = k ∧ ∃ x ∈ S, p.Owner = coerceUTF8 x := by
  obtain ⟨p, h1, h2, h3⟩ := h
  refine ⟨p.coerced, by rw [h1]; exact Unmarshal_Marshal p _ _ (Marshal_eq p), ?_, p.Owner, h3,
    rfl⟩
  show coerceUTF8 p.ID = (k : GoString)
  rw [h2, coerceUTF8_text]

/-! ## Holders and identifiers -/

/-- C15, amended. In every ledger reached from the empty one by `CreateProduct`,
`ShipProduct` and `ReceiveProduct` calls none of which named the empty string as holder
(the farmer of a create, the new owner of a transfer), every current value and every value
in a commit log reads as a record whose owner is not the empty string. -/
theorem Owner_not_empty (calls : List Call) (k : String)
    (hcalls : ∀ c ∈ calls, c.holder ≠ []) :
    (∀ v, (runCalls Ledger.empty calls).state k = some v →
      ∃ p, Unmarshal v Product.zero = .ok p ∧ p.Owner ≠ []) ∧
    (∀ e ∈ (runCalls Ledger.empty calls).history k,
      ∃ p, Unmarshal e.Value Product.zero = .ok p ∧ p.Owner ≠ []) := by
  have hm := Maintained_reached calls
  have hne : ∀ (p : Product) (x : GoString), x ∈ calls.map Call.holder →
      p.Owner = coerceUTF8 x → p.Owner ≠ [] := by
    intro p x hx hp
    obtain ⟨c, hc, hcx⟩ := List.mem_map.1 hx
    rw [hp, ← hcx]
    exact coerceUTF8_ne_nil _ (hcalls c hc)
  constructor
  · intro v hv
    obtain ⟨p, h1, -, x, hx, h3⟩ := Stored_reads (hm.2.1 k v hv)
    exact ⟨p, h1, hne p x hx h3⟩
  · intro e he
    obtain ⟨p, h1, -, x, hx, h3⟩ := Stored_reads (hm.2.2 k e he)
    exact ⟨p, h1, hne p x hx h3⟩

set_option maxRecDepth 100000 in
theorem Owner_not_empty_witness :
    (∀ c ∈ [Call.Create tx1 t1 "P1" "grain" "farmerA" "priceHash1" "certHash1",
        Call.Ship tx2 t2 "P1" "shipperB"], c.holder ≠ []) ∧
      (runCalls Ledger.empty
        [Call.Create tx1 t1 "P1" "grain" "farmerA" "priceHash1" "certHash1",
         Call.Ship tx2 t2 "P1" "shipperB"]).state "P1" = some textShipped ∧
      ∃ p, Unmarshal textShipped Product.zero = .ok p ∧ p.Owner ≠ [] :=
  have hcalls : ∀ c ∈ [Call.Create tx1 t1 "P1" "grain" "farmerA" "priceHash1" "certHash1",
      Call.Ship tx2 t2 "P1" "shipperB"], c.holder ≠ [] := by decide
  have hstate : (runCalls Ledger.empty
      [Call.Create tx1 t1 "P1" "grain" "farmerA" "priceHash1" "certHash1",
       Call.Ship tx2 t2 "P1" "shipperB"]).state "P1" = some textShipped := rfl
  ⟨hcalls, hstate,
    (Owner_not_empty
      [Call.Create tx1 t1 "P1" "grain" "farmerA" "priceHash1" "certHash1",
       Call.Ship tx2 t2 "P1" "shipperB"] "P1" hcalls).1 textShipped hstate⟩

set_option maxRecDepth 100000 in
/-- C15 as stated fails: `CreateProduct` with the empty string as farmer succeeds on the
empty ledger, and the record then stored under `P1` has the empty string as owner. -/
theorem empty_owner_counterexample :
    (CreateProduct tx1 t1 Ledger.empty "P1" "grain" "" "priceHash1" "certHash1").1 = none ∧
      (ReadProduct
          (runCalls Ledger.empty [Call.Create tx1 t1 "P1" "grain" "" "priceHash1" "certHash1"])
          "P1").1 =
        .ok { ID := "P1", Type_ := "grain", Farmer := "", Owner := "", Timestamp := t1,
              MarketPriceHash := "priceHash1", CertificationIPFSHash := "certHash1" } ∧
      (("" : String) : GoString) = [] :=
  ⟨rfl, rfl, rfl⟩

theorem runTransfers_stamps (id : String) : ∀ (ts : List TransferCall) (l : Ledger) (p : Product),
    l.unavailable = none → l.state id = some (marshalText p) →
    (runTransfers id l ts).2.unavailable = none ∧
      ∃ (ps : List Product) (es : List KeyModification),
        (runTransfers id l ts).2.history id = l.history id ++ es ∧
        es.map (fun e => e.Value) = ps.map marshalText ∧
        ps.map (fun x => x.Timestamp) = ts.map (fun t => t.now) := by
  intro ts
  induction ts with
  | nil =>
    intro l p hu hv
    exact ⟨hu, [], [], by simp [runTransfers], rfl, rfl⟩
  | cons t ts ih =>
    intro l p hu hv
    have hrun := TransferCall_run_ok hu hv t
    obtain ⟨p1, hp1⟩ : ∃ p1 : Product, p1 =
        { ID := p.coerced.ID, Type_ := p.coerced.Type_, Farmer := p.coerced.Farmer,
          Owner := t.newOwner, Timestamp := t.now,
          MarketPriceHash := p.coerced.MarketPriceHash,
          CertificationIPFSHash := p.coerced.CertificationIPFSHash } := ⟨_, rfl⟩
    rw [← hp1] at hrun
    have hstamp : p1.Timestamp = t.now := by rw [hp1]
    simp only [runTransfers, hrun, List.map_cons]
    obtain ⟨h2, ps, es, h5, h6, h7⟩ :=
      ih (written t.ctx l id (marshalText p1)) p1 (by simpa [written] using hu)
        (by simp [written])
    refine ⟨h2, p1 :: ps,
      { TxId := t.ctx.TxID, Value := marshalText p1, Timestamp := t.ctx.TxTimestamp,
        IsDelete := false } :: es, ?_, ?_, ?_⟩
    · rw [h5]
      simp only [written, if_true, List.append_assoc, List.singleton_append]
    · simp only [List.map_cons, h6]
    · simp only [List.map_cons, h7, hstamp]

/-- After a create and transfers on a key that was never written, the timestamps of the
records along the history are the clock readings of the calls, in order. -/
theorem custody_stamps (ctx : TransactionContext) (now : Int64) (l : Ledger) (id : String)
    (productType farmer marketPriceHash certHash : GoString) (ts : List TransferCall)
    (h : (GetState l id).1 = .ok none) (hlog : (GetHistoryForKey l id).1 = .ok []) :
    ∃ hs, (GetProductHistory (runTransfers id
          (CreateProduct ctx now l id productType farmer marketPriceHash certHash).2 ts).2
          id).1 = .ok hs ∧
      hs.map (fun r => r.Record.Timestamp) = now :: ts.map (fun t => t.now) := by
  obtain ⟨hu, hv⟩ := available_of_GetState h
  obtain ⟨-, hl⟩ := available_of_GetHistoryForKey hlog
  rw [CreateProduct_absent hu hv]
  obtain ⟨p0, hp0⟩ : ∃ p0 : Product, p0 =
      { ID := id, Type_ := productType, Farmer := farmer, Owner := farmer, Timestamp := now,
        MarketPriceHash := marketPriceHash, CertificationIPFSHash := certHash } := ⟨_, rfl⟩
  rw [← hp0]
  have hstamp : p0.Timestamp = now := by rw [hp0]
  obtain ⟨h2, ps, es, h5, h6, h7⟩ :=
    runTransfers_stamps id ts (written ctx l id (marshalText p0)) p0
      (by simpa [written] using hu) (by simp [written])
  have hhist : (runTransfers id (written ctx l id (marshalText p0)) ts).2.history id =
      { TxId := ctx.TxID, Value := marshalText p0, Timestamp := ctx.TxTimestamp,
        IsDelete := false } :: es := by
    rw [h5]; simp [written, hl]
  obtain ⟨rs, r1, r2, -⟩ := historyLoop_marshalText id
    ({ TxId := ctx.TxID, Value := marshalText p0, Timestamp := ctx.TxTimestamp,
        IsDelete := false } :: es) (p0 :: ps) [] (by simp [h6])
  refine ⟨rs, ?_, ?_⟩
  · simp only [GetProductHistory, GetHistoryForKey, h2, hhist]
    simpa using r1
  · have e1 : rs.map (fun r => r.Record.Timestamp) =
        (rs.map fun r => r.Record).map fun x => x.Timestamp := by
      simp [List.map_map]
    have e2 : (p0 :: ps).map (fun x => x.coerced.Timestamp) =
        (p0 :: ps).map fun x => x.Timestamp := by
      simp [Product.coerced]
    rw [e1, r2, List.map_map]
    exact e2.trans (by rw [List.map_cons, h7, hstamp])

/-- C17, amended. The code stores the clock reading of the call as the timestamp and
compares it with nothing: after a `CreateProduct` and any transfers on an identifier, the
timestamps of the records along its history are the clock readings the calls took, in
order; so they are non-decreasing when each call read a clock value at least as large as
the call before it. -/
theorem Timestamp_follows_clock (ctx : TransactionContext) (now : Int64) (l : Ledger)
    (id : String) (productType farmer marketPriceHash certHash : GoString)
    (ts : List TransferCall) (h : (GetState l id).1 = .ok none)
    (hlog : (GetHistoryForKey l id).1 = .ok []) :
    ∃ hs, (GetProductHistory (runTransfers id
          (CreateProduct ctx now l id productType farmer marketPriceHash certHash).2 ts).2
          id).1 = .ok hs ∧
      hs.map (fun r => r.Record.Timestamp) = now :: ts.map (fun t => t.now) ∧
      (List.Chain' (fun a b : Int64 => a.val ≤ b.val) (now :: ts.map fun t => t.now) →
        List.Chain' (fun a b : HistoryQueryResult =>
          a.Record.Timestamp.val ≤ b.Record.Timestamp.val) hs) := by
  obtain ⟨hs, h1, h2⟩ :=
    custody_stamps ctx now l id productType farmer marketPriceHash certHash ts h hlog
  refine ⟨hs, h1, h2, fun hc => ?_⟩
  rw [← h2, List.chain'_map] at hc
  exact hc

theorem Timestamp_follows_clock_witness :
    ∃ hs, (GetProductHistory (runTransfers "P1"
          (CreateProduct tx1 t1 Ledger.empty "P1" "grain" "farmerA" "priceHash1" "certHash1").2
          [{ kind := TransferKind.Ship, ctx := tx2, now := t2, newOwner := "shipperB" },
           { kind := TransferKind.Receive, ctx := tx3, now := t3, newOwner := "retailerC" }]).2
          "P1").1 = .ok hs ∧
      hs.map (fun r => r.Record.Timestamp) = [t1, t2, t3] ∧
      List.Chain' (fun a b : HistoryQueryResult =>
        a.Record.Timestamp.val ≤ b.Record.Timestamp.val) hs :=
  match Timestamp_follows_clock tx1 t1 Ledger.empty "P1" "grain" "farmerA" "priceHash1"
      "certHash1"
      [{ kind := TransferKind.Ship, ctx := tx2, now := t2, newOwner := "shipperB" },
       { kind := TransferKind.Receive, ctx := tx3, now := t3, newOwner := "retailerC" }]
      rfl rfl with
  | ⟨hs, h1, h2, h3⟩ =>
    ⟨hs, h1, h2, h3 (List.chain'_cons.2 ⟨by decide,
      List.chain'_cons.2 ⟨by decide, List.chain'_singleton _⟩⟩)⟩

/-- C17 as stated fails: `P1` is created by a call that reads the clock at `t2` and then
shipped by a call that reads it at `t1`, an earlier value. Both calls succeed, and the
timestamps of the records along the history are `t2` and then `t1`: they decrease. -/
theorem clock_counterexample :
    (CreateProduct tx1 t2 Ledger.empty "P1" "grain" "farmerA" "priceHash1" "certHash1").1 =
        none ∧
      (runTransfers "P1"
        (CreateProduct tx1 t2 Ledger.empty "P1" "grain" "farmerA" "priceHash1" "certHash1").2
        [{ kind := TransferKind.Ship, ctx := tx2, now := t1, newOwner := "shipperB" }]).1 =
        [none] ∧
      (∃ hs, (GetProductHistory (runTransfers "P1"
          (CreateProduct tx1 t2 Ledger.empty "P1" "grain" "farmerA" "priceHash1" "certHash1").2
          [{ kind := TransferKind.Ship, ctx := tx2, now := t1, newOwner := "shipperB" }]).2
          "P1").1 = .ok hs ∧
        hs.map (fun r => r.Record.Timestamp) = [t2, t1]) ∧
      t1.val < t2.val := by
  refine ⟨rfl, ?_, ?_, by decide⟩
  · rw [CreateProduct_absent rfl rfl]
    exact (runTransfers_spec "P1" _ _
      { ID := "P1", Type_ := "grain", Farmer := "farmerA", Owner := "farmerA", Timestamp := t2,
        MarketPriceHash := "priceHash1", CertificationIPFSHash := "certHash1" }
      rfl (by simp [written])).1
  · exact custody_stamps tx1 t2 Ledger.empty "P1" "grain" "farmerA" "priceHash1" "certHash1"
      [{ kind := TransferKind.Ship, ctx := tx2, now := t1, newOwner := "shipperB" }] rfl rfl

/-! ## One write, to one key -/

theorem CreateProduct_unavailable {l : Ledger} {msg : String} (h : l.unavailable = some msg)
    (ctx : TransactionContext) (now : Int64) (id : String)
    (productType farmer marketPriceHash certHash : GoString) :
    CreateProduct ctx now l id productType farmer marketPriceHash certHash =
      (some (GoError.Errorf ("failed to read from world state: " ++ msg)), l) := by
  simp [CreateProduct, ProductExists, GetState, h]

theorem ShipProduct_unavailable {l : Ledger} {msg : String} (h : l.unavailable = some msg)
    (ctx : TransactionContext) (now : Int64) (id : String) (newOwner : GoString) :
    ShipProduct ctx now l id newOwner =
      (some (GoError.Errorf ("failed to read from world state: " ++ msg)), l) := by
  simp [ShipProduct, ReadProduct, GetState, h]

theorem ShipProduct_corrupt {l : Ledger} (h : l.unavailable = none) {id : String} {v : Bytes}
    {err : JsonError} (hv : l.state id = some v) (hu : Unmarshal v Product.zero = .error err)
    (ctx : TransactionContext) (now : Int64) (newOwner : GoString) :
    ShipProduct ctx now l id newOwner = (some (GoError.Json err), l) := by
  simp [ShipProduct, ReadProduct_error h hv hu]

/-- What `CreateProduct` can do to the ledger: fail and leave it as it was, or succeed
with one put on `id`. -/
theorem CreateProduct_outcome (ctx : TransactionContext) (now : Int64) (l : Ledger)
    (id : String) (productType farmer marketPriceHash certHash : GoString) :
    (∃ err, CreateProduct ctx now l id productType farmer marketPriceHash certHash =
        (some err, l)) ∨
      (l.unavailable = none ∧ ∃ text,
        CreateProduct ctx now l id productType farmer marketPriceHash certHash =
          (none, written ctx l id text)) := by
  cases hu : l.unavailable with
  | some msg => exact Or.inl ⟨_, CreateProduct_unavailable hu _ _ _ _ _ _ _⟩
  | none =>
    cases hv : l.state id with
    | none => exact Or.inr ⟨rfl, _, CreateProduct_absent hu hv _ _ _ _ _ _⟩
    | some v => exact Or.inl ⟨_, CreateProduct_present hu (by simp [hv]) _ _ _ _ _ _⟩

/-- What `ShipProduct` can do to the ledger: fail and leave it as it was, or succeed with
one put on `id`. -/
theorem ShipProduct_outcome (ctx : TransactionContext) (now : Int64) (l : Ledger)
    (id : String) (newOwner : GoString) :
    (∃ err, ShipProduct ctx now l id newOwner = (some err, l)) ∨
      (l.unavailable = none ∧ ∃ text,
        ShipProduct ctx now l id newOwner = (none, written ctx l id text)) := by
  cases hu : l.unavailable with
  | some msg => exact Or.inl ⟨_, ShipProduct_unavailable hu _ _ _ _⟩
  | none =>
    cases hv : l.state id with
    | none => exact Or.inl ⟨_, ShipProduct_absent hu hv _ _ _⟩
    | some v =>
      cases hr : Unmarshal v Product.zero with
      | error err => exact Or.inl ⟨_, ShipProduct_corrupt hu hv hr _ _ _⟩
      | ok p => exact Or.inr ⟨rfl, _, ShipProduct_ok hu hv hr _ _ _⟩

/-- C19. `CreateProduct` and `ShipProduct` write at most once, and only to the key they
were called with: a call that returns an error (the ledger could not be read, the product
already exists, it does not exist, or its stored value does not read as a record) hands
back the ledger it was given, current values and histories of all keys untouched; a call
that succeeds leaves the ledger that exactly one `PutState` on `id` leaves. -/
theorem mutations_atomic (ctx : TransactionContext) (now : Int64) (l : Ledger) (id : String)
    (productType farmer marketPriceHash certHash newOwner : GoString) :
    ((CreateProduct ctx now l id productType farmer marketPriceHash certHash).1 ≠ none →
      (CreateProduct ctx now l id productType farmer marketPriceHash certHash).2 = l) ∧
    ((CreateProduct ctx now l id productType farmer marketPriceHash certHash).1 = none →
      ∃ text, PutState ctx l id text =
        (none, (CreateProduct ctx now l id productType farmer marketPriceHash certHash).2)) ∧
    ((ShipProduct ctx now l id newOwner).1 ≠ none →
      (ShipProduct ctx now l id newOwner).2 = l) ∧
    ((ShipProduct ctx now l id newOwner).1 = none →
      ∃ text, PutState ctx l id text = (none, (ShipProduct ctx now l id newOwner).2)) := by
  refine ⟨?_, ?_, ?_, ?_⟩
  · intro h
    rcases CreateProduct_outcome ctx now l id productType farmer marketPriceHash certHash with
      ⟨err, e⟩ | ⟨hu, text, e⟩
    · rw [e]
    · rw [e] at h; exact absurd rfl h
  · intro h
    rcases CreateProduct_outcome ctx now l id productType farmer marketPriceHash certHash with
      ⟨err, e⟩ | ⟨hu, text, e⟩
    · rw [e] at h; cases h
    · rw [e]; exact ⟨text, PutState_of_available hu ctx id text⟩
  · intro h
    rcases ShipProduct_outcome ctx now l id newOwner with ⟨err, e⟩ | ⟨hu, text, e⟩
    · rw [e]
    · rw [e] at h; exact absurd rfl h
  · intro h
    rcases ShipProduct_outcome ctx now l id newOwner with ⟨err, e⟩ | ⟨hu, text, e⟩
    · rw [e] at h; cases h
    · rw [e]; exact ⟨text, PutState_of_available hu ctx id text⟩

set_option maxRecDepth 100000 in
theorem mutations_atomic_witness :
    (CreateProduct tx2 t2 ledgerP1 "P1" "grain" "farmerB" "priceHash2" "certHash2").2 = ledgerP1 ∧
      (∃ text, PutState tx2 ledgerP1 "P2" text =
        (none, (CreateProduct tx2 t2 ledgerP1 "P2" "grain" "farmerB" "priceHash2"
          "certHash2").2)) ∧
      (ShipProduct tx2 t2 ledgerP1 "P2" "shipperB").2 = ledgerP1 ∧
      ∃ text, PutState tx2 ledgerP1 "P1" text =
        (none, (ShipProduct tx2 t2 ledgerP1 "P1" "shipperB").2) :=
  ⟨(mutations_atomic tx2 t2 ledgerP1 "P1" "grain" "farmerB" "priceHash2" "certHash2"
      "shipperB").1 (fun h => by cases h),
   (mutations_atomic tx2 t2 ledgerP1 "P2" "grain" "farmerB" "priceHash2" "certHash2"
      "shipperB").2.1 rfl,
   (mutations_atomic tx2 t2 ledgerP1 "P2" "grain" "farmerB" "priceHash2" "certHash2"
      "shipperB").2.2.1 (fun h => by cases h),
   (mutations_atomic tx2 t2 ledgerP1 "P1" "grain" "farmerB" "priceHash2" "certHash2"
      "shipperB").2.2.2 rfl⟩

/-! ## Other keys -/

theorem reads_written (ctx : TransactionContext) (l : Ledger) (id other : String)
    (text : Bytes) (hne : id ≠ other) :
    (ProductExists (written ctx l id text) other).1 = (ProductExists l other).1 ∧
      (ReadProduct (written ctx l id text) other).1 = (ReadProduct l other).1 ∧
      (GetProductHistory (written ctx l id text) other).1 = (GetProductHistory l other).1 := by
  have hk : ¬ other = id := fun h => hne h.symm
  refine ⟨?_, ?_, ?_⟩
  · simp only [ProductExists, GetState, written, hk, if_false]
    cases l.unavailable <;> rfl
  · simp only [ReadProduct, GetState, written, hk, if_false]
    cases l.unavailable with
    | some msg => rfl
    | none =>
      cases l.state other with
      | none => rfl
      | some v => dsimp only; cases Unmarshal v Product.zero <;> rfl
  · simp only [GetProductHistory, GetHistoryForKey, written, hk, if_false]
    cases l.unavailable <;> rfl

/-- C20. Key isolation: a `CreateProduct`, `ShipProduct` or `ReceiveProduct` call on `id`,
whether it succeeds or fails, leaves what `ProductExists`, `ReadProduct` and
`GetProductHistory` return for every other identifier as it was. -/
theorem key_isolation (ctx : TransactionContext) (now : Int64) (l : Ledger) (id other : String)
    (productType farmer marketPriceHash certHash newOwner : GoString) (hne : id ≠ other) :
    ((ProductExists (CreateProduct ctx now l id productType farmer marketPriceHash certHash).2
          other).1 = (ProductExists l other).1 ∧
      (ReadProduct (CreateProduct ctx now l id productType farmer marketPriceHash certHash).2
          other).1 = (ReadProduct l other).1 ∧
      (GetProductHistory
          (CreateProduct ctx now l id productType farmer marketPriceHash certHash).2
          other).1 = (GetProductHistory l other).1) ∧
    ((ProductExists (ShipProduct ctx now l id newOwner).2 other).1 = (ProductExists l other).1 ∧
      (ReadProduct (ShipProduct ctx now l id newOwner).2 other).1 = (ReadProduct l other).1 ∧
      (GetProductHistory (ShipProduct ctx now l id newOwner).2 other).1 =
        (GetProductHistory l other).1) ∧
    ((ProductExists (ReceiveProduct ctx now l id newOwner).2 other).1 =
        (ProductExists l other).1 ∧
      (ReadProduct (ReceiveProduct ctx now l id newOwner).2 other).1 =
        (ReadProduct l other).1 ∧
      (GetProductHistory (ReceiveProduct ctx now l id newOwner).2 other).1 =
        (GetProductHistory l other).1) := by
  have hship : (ProductExists (ShipProduct ctx now l id newOwner).2 other).1 =
        (ProductExists l other).1 ∧
      (ReadProduct (ShipProduct ctx now l id newOwner).2 other).1 = (ReadProduct l other).1 ∧
      (GetProductHistory (ShipProduct ctx now l id newOwner).2 other).1 =
        (GetProductHistory l other).1 := by
    rcases ShipProduct_outcome ctx now l id newOwner with ⟨err, e⟩ | ⟨-, text, e⟩
    · rw [e]; exact ⟨rfl, rfl, rfl⟩
    · rw [e]; exact reads_written ctx l id other text hne
  refine ⟨?_, hship, hship⟩
  rcases CreateProduct_outcome ctx now l id productType farmer marketPriceHash certHash with
    ⟨err, e⟩ | ⟨-, text, e⟩
  · rw [e]; exact ⟨rfl, rfl, rfl⟩
  · rw [e]; exact reads_written ctx l id other text hne

set_option maxRecDepth 100000 in
theorem key_isolation_witness :
    (ReadProduct (CreateProduct tx2 t2 ledgerP1 "P2" "grain" "farmerB" "priceHash2"
        "certHash2").2 "P1").1 = (ReadProduct ledgerP1 "P1").1 ∧
      (GetProductHistory (ShipProduct tx2 t2 ledgerP1 "P1" "shipperB").2 "P2").1 =
        (GetProductHistory ledgerP1 "P2").1 ∧
      (ProductExists (ReceiveProduct tx2 t2 ledgerP1 "P1" "shipperB").2 "P2").1 =
        (ProductExists ledgerP1 "P2").1 :=
  ⟨(key_isolation tx2 t2 ledgerP1 "P2" "P1" "grain" "farmerB" "priceHash2" "certHash2"
      "shipperB" (by decide)).1.2.1,
   (key_isolation tx2 t2 ledgerP1 "P1" "P2" "grain" "farmerB" "priceHash2" "certHash2"
      "shipperB" (by decide)).2.1.2.2,
   (key_isolation tx2 t2 ledgerP1 "P1" "P2" "grain" "farmerB" "priceHash2" "certHash2"
      "shipperB" (by decide)).2.2.1⟩

end CropChain
